import Mathlib

/-!
Verification of the DonorDex CSV import / search core.

The JavaScript sources (js/utils.js, js/search.js, js/ui.js and the
ImportExport module) are shallowly embedded below.  JavaScript strings are
modelled as `String`/`List Char`, JavaScript numbers appearing in amounts
and scores as `ℚ` (the floating point representation is abstracted to exact
rationals; a NaN produced by 0/0 is modelled as `Option.none`), and epoch
millisecond timestamps as `ℤ`.
-/

set_option maxRecDepth 8000

namespace DonorDex

/-! ## String machinery shared by the embedded functions -/

/-- The apostrophe character (code 39). -/
def aposChar : Char := Char.ofNat 39

/-- The double quote character (code 34). -/
def dquoteChar : Char := Char.ofNat 34

/-- Characters removed by the JavaScript trim function: ASCII whitespace
together with the no-break space and the byte order mark. -/
def isWsChar (c : Char) : Bool :=
  c = ' ' || c = Char.ofNat 9 || c = Char.ofNat 10 || c = Char.ofNat 13 ||
  c = Char.ofNat 11 || c = Char.ofNat 12 || c = Char.ofNat 160 || c = Char.ofNat 65279

/-- Remove leading whitespace. -/
def trimLeftL (l : List Char) : List Char := l.dropWhile isWsChar

/-- Model of the JavaScript trim method on a character list. -/
def trimL (l : List Char) : List Char :=
  ((trimLeftL l).reverse.dropWhile isWsChar).reverse

/-- Model of the JavaScript trim method on a string. -/
def jsTrim (s : String) : String := String.mk (trimL s.data)

/-- Model of the JavaScript split method with a single-character separator:
it always returns at least one piece, and separators delimit pieces. -/
def splitOnCharL (sep : Char) : List Char → List (List Char)
  | [] => [[]]
  | c :: rest =>
    let r := splitOnCharL sep rest
    if c = sep then [] :: r
    else
      match r with
      | h :: t => (c :: h) :: t
      | [] => [[c]]

/-- Does the character list start with the given pattern? -/
def startsWith : List Char → List Char → Bool
  | _, [] => true
  | [], _ :: _ => false
  | b :: bs, p :: ps => (b = p) && startsWith bs ps

/-- Model of the JavaScript includes method (substring containment). -/
def strContainsL : List Char → List Char → Bool
  | [], pat => pat.isEmpty
  | b :: bs, pat => startsWith (b :: bs) pat || strContainsL bs pat

/-- Substring containment on strings. -/
def strContains (s pat : String) : Bool := strContainsL s.data pat.data

/-- Model of the JavaScript toLowerCase method (per-character lowering;
the handful of Unicode multi-character lowerings is out of scope). -/
def toLowerL (l : List Char) : List Char := l.map Char.toLower

/-- Lower-case a string. -/
def jsToLower (s : String) : String := String.mk (toLowerL s.data)

/-- Text strictly before the first occurrence of a separator. -/
def beforeFirst (sep : Char) (l : List Char) : List Char :=
  l.takeWhile (fun c => !(c = sep))

/-- Text strictly after the first occurrence of a separator. -/
def afterFirst (sep : Char) (l : List Char) : List Char :=
  (l.dropWhile (fun c => !(c = sep))).drop 1

theorem startsWith_append_self (p r : List Char) : startsWith (p ++ r) p = true := by
  induction p with
  | nil => cases r <;> rfl
  | cons c cs ih => simp [startsWith, ih]

theorem strContainsL_nil_pat (l : List Char) : strContainsL l [] = true := by
  cases l <;> simp [strContainsL, List.isEmpty, startsWith]

theorem strContainsL_of_append (x pat y : List Char) :
    strContainsL (x ++ pat ++ y) pat = true := by
  induction x with
  | nil =>
    cases hpy : pat ++ y with
    | nil =>
      simp only [List.nil_append, hpy]
      have hp : pat = [] := by
        cases pat with
        | nil => rfl
        | cons a t => simp at hpy
      rw [hp]
      exact strContainsL_nil_pat []
    | cons b bs =>
      simp only [List.nil_append, hpy]
      have hsw : startsWith (b :: bs) pat = true := by
        rw [← hpy]; exact startsWith_append_self pat y
      simp [strContainsL, hsw]
  | cons b bs ih =>
    have hcons : strContainsL (b :: (bs ++ pat ++ y)) pat =
        (startsWith (b :: (bs ++ pat ++ y)) pat || strContainsL (bs ++ pat ++ y) pat) := rfl
    simp only [List.cons_append]
    rw [hcons, ih]
    simp

theorem splitOnCharL_decomp (sep : Char) (l : List Char) :
    splitOnCharL sep l = beforeFirst sep l ::
      (if l.any (fun c => c = sep) then splitOnCharL sep (afterFirst sep l) else []) := by
  induction l with
  | nil => simp [splitOnCharL, beforeFirst, afterFirst]
  | cons c rest ih =>
    by_cases h : c = sep
    · have hb : beforeFirst sep (c :: rest) = [] := by
        simp [beforeFirst, List.takeWhile, h]
      have ha : afterFirst sep (c :: rest) = rest := by
        simp [afterFirst, List.dropWhile, h]
      have hany : (c :: rest).any (fun c => c = sep) = true := by
        simp [List.any_cons, h]
      rw [hb, ha, hany]
      simp [splitOnCharL, h]
    · have hb : beforeFirst sep (c :: rest) = c :: beforeFirst sep rest := by
        simp [beforeFirst, List.takeWhile, h]
      have ha : afterFirst sep (c :: rest) = afterFirst sep rest := by
        simp [afterFirst, List.dropWhile, h]
      have hany : (c :: rest).any (fun x => x = sep) = rest.any (fun x => x = sep) := by
        simp [List.any_cons, h]
      rw [hb, ha, hany]
      show (if c = sep then [] :: splitOnCharL sep rest
            else match splitOnCharL sep rest with
              | h :: t => (c :: h) :: t
              | [] => [[c]]) = _
      rw [if_neg h, ih]

/-! ## NameSplitter: Utils.parseFullName (js/utils.js lines 183-206) -/

structure NameParts where
  firstName : String
  lastName : String
deriving DecidableEq, Repr

/-- Embedding of Utils.parseFullName.  In the comma branch the source
splits on every comma, trims each piece, and destructures only the first
two pieces (the map over all pieces happens before the destructuring). -/
def parseFullName (fullName : String) : NameParts :=
  if fullName = "" then ⟨"", ""⟩
  else if (trimL fullName.data).any (fun c => c = ',') then
    ⟨String.mk (((splitOnCharL ',' (trimL fullName.data)).map trimL).getD 1 []),
     String.mk (((splitOnCharL ',' (trimL fullName.data)).map trimL).getD 0 [])⟩
  else
    match (splitOnCharL ' ' (trimL fullName.data)).filter (fun p => p.length > 0) with
    | [] => ⟨"", ""⟩
    | [w] => ⟨"", String.mk w⟩
    | w :: ws => ⟨String.mk (List.intercalate [' '] ((w :: ws).dropLast)),
                  String.mk ((w :: ws).getLast (by simp))⟩

/-- Claim C5, counterexample: on an input with two commas, the code does
not take the whole text after the first comma as the first name; the text
after the second comma is discarded. -/
theorem C5_counterexample :
    parseFullName "Smith, John, Jr." = ⟨"John", "Smith"⟩ ∧
      ("John" : String) ≠ "John, Jr." := by
  constructor
  · rfl
  · decide

/-- Claim C5 (amended): for every full-name string containing a comma, the
text before the first comma (trimmed) becomes lastName, and the text
strictly between the first and second commas — the whole text after the
first comma when there is no second comma — (trimmed) becomes firstName;
text after a second comma is discarded. -/
theorem C5_amended (s : String) (hne : s ≠ "")
    (hc : (trimL s.data).any (fun c => c = ',') = true) :
    parseFullName s =
      ⟨String.mk (trimL (beforeFirst ',' (afterFirst ',' (trimL s.data)))),
       String.mk (trimL (beforeFirst ',' (trimL s.data)))⟩ := by
  unfold parseFullName
  rw [if_neg hne, if_pos hc]
  have hd := splitOnCharL_decomp ',' (trimL s.data)
  rw [hc] at hd
  simp only [if_true] at hd
  have hd2 := splitOnCharL_decomp ',' (afterFirst ',' (trimL s.data))
  rw [hd, hd2]
  by_cases h2 : (afterFirst ',' (trimL s.data)).any (fun c => c = ',') = true
  · rw [h2]
    simp [List.getD]
  · rw [if_neg h2]
    simp [List.getD]

/-- Claim C5 witness: the amended statement evaluated at a concrete input
with a single comma and at one with two commas. -/
theorem C5_amended_witness :
    parseFullName "Smith, John" = ⟨"John", "Smith"⟩ ∧
      parseFullName "Doe, Jane, III" = ⟨"Jane", "Doe"⟩ := by
  constructor
  · have h := C5_amended "Smith, John" (by decide) (by decide)
    rw [h]; rfl
  · have h := C5_amended "Doe, Jane, III" (by decide) (by decide)
    rw [h]; rfl

/-! ## CSV export escaping: Utils.safeForCSV / Utils.escapeCsvField
(js/utils.js lines 31-49) -/

/-- The characters the formula-injection guard looks for at the start of a
value. -/
def dangerChars : List Char := ['=', '+', '-', '@']

/-- Model of the regex test for a leading dangerous character. -/
def dangerStart (s : String) : Bool :=
  match s.data with
  | [] => false
  | c :: _ => dangerChars.contains c

/-- Embedding of Utils.safeForCSV: prepend a literal apostrophe when the
value starts with a formula character. -/
def safeForCSV (s : String) : String :=
  if dangerStart s then String.mk (aposChar :: s.data) else s

/-- A character that forces CSV quoting: double quote, comma or newline. -/
def isCsvSpecial (c : Char) : Bool :=
  c = dquoteChar || c = ',' || c = Char.ofNat 10

/-- Double every double-quote character (the replace of the source). -/
def doubleQuotesL : List Char → List Char
  | [] => []
  | c :: rest =>
    if c = dquoteChar then c :: c :: doubleQuotesL rest else c :: doubleQuotesL rest

/-- Embedding of Utils.escapeCsvField: guard, then wrap in double quotes
when the guarded value contains a comma, quote or newline, doubling the
inner quotes.  (The source binds the guarded value once; it is repeated
here, which computes the same string.) -/
def escapeCsvField (s : String) : String :=
  if (safeForCSV s).data.any isCsvSpecial then
    String.mk (dquoteChar :: (doubleQuotesL (safeForCSV s).data ++ [dquoteChar]))
  else safeForCSV s

theorem doubleQuotesL_eq_flatMap (l : List Char) :
    doubleQuotesL l = l.flatMap (fun c => if c = dquoteChar then [c, c] else [c]) := by
  induction l with
  | nil => rfl
  | cons c rest ih =>
    by_cases h : c = dquoteChar <;> simp [doubleQuotesL, h, ih]

/-- Claim C8: the export escaping first applies the formula-injection guard
(a value whose first character is one of the four dangerous characters gets
an apostrophe prepended), and then wraps the possibly-prefixed value in
double quotes exactly when it contains a comma, double quote or newline,
doubling internal double quotes; values matching neither condition are
returned unchanged. -/
theorem C8_csv_escaping (s : String) :
    (dangerStart s = false → safeForCSV s = s) ∧
    (dangerStart s = true → safeForCSV s = String.mk (aposChar :: s.data)) ∧
    (dangerStart s = true ↔ ∃ c rest, s.data = c :: rest ∧ c ∈ dangerChars) ∧
    ((safeForCSV s).data.any isCsvSpecial = false → escapeCsvField s = safeForCSV s) ∧
    ((safeForCSV s).data.any isCsvSpecial = true →
      escapeCsvField s = String.mk (dquoteChar ::
        ((safeForCSV s).data.flatMap
          (fun c => if c = dquoteChar then [c, c] else [c]) ++ [dquoteChar]))) ∧
    (dangerStart s = false → s.data.any isCsvSpecial = false → escapeCsvField s = s) := by
  refine ⟨?_, ?_, ?_, ?_, ?_, ?_⟩
  · intro h; simp [safeForCSV, h]
  · intro h; simp [safeForCSV, h]
  · constructor
    · intro h
      unfold dangerStart at h
      cases hd : s.data with
      | nil => rw [hd] at h; simp at h
      | cons c rest =>
        rw [hd] at h
        exact ⟨c, rest, rfl, by simpa using h⟩
    · rintro ⟨c, rest, hd, hc⟩
      unfold dangerStart
      rw [hd]
      simpa using hc
  · intro h
    simp [escapeCsvField, h]
  · intro h
    simp only [escapeCsvField, h, if_true]
    rw [doubleQuotesL_eq_flatMap]
  · intro h1 h2
    have hs : safeForCSV s = s := by simp [safeForCSV, h1]
    simp [escapeCsvField, hs, h2]

/-- Claim C8 witness: the escaping evaluated through the theorem at a
concrete input. -/
theorem C8_csv_escaping_witness :
    safeForCSV "hello" = "hello" ∧ escapeCsvField "hello" = "hello" := by
  refine ⟨(C8_csv_escaping "hello").1 (by decide), ?_⟩
  exact (C8_csv_escaping "hello").2.2.2.2.2 (by decide) (by decide)

/-! ## Calendar arithmetic (model of the JavaScript Date object on the
validated range 1900-2100) -/

/-- Gregorian leap year test. -/
def isLeapYear (y : Nat) : Bool := y % 4 = 0 && (y % 100 ≠ 0 || y % 400 = 0)

/-- Number of days of month m (1-12) of year y. -/
def daysInMonth (y m : Nat) : Nat :=
  if m = 2 then (if isLeapYear y then 29 else 28)
  else if m = 4 || m = 6 || m = 9 || m = 11 then 30
  else 31

/-- Days since 0000-03-01 of the civil date y-m-d (used with y ≥ 1 and
1 ≤ m ≤ 12; the standard shifted-year day count). -/
def civilDays (y m d : Nat) : Nat :=
  let ys := if m ≤ 2 then y - 1 else y
  let mp := if m ≤ 2 then m + 9 else m - 3
  ys * 365 + ys / 4 - ys / 100 + ys / 400 + (153 * mp + 2) / 5 + (d - 1)

/-- Model of Date.UTC(y, m-1, d): milliseconds at UTC midnight of the
civil date. -/
def dateUTC (y m d : Nat) : Int :=
  ((civilDays y m d : Int) - (civilDays 1970 1 1 : Int)) * 86400000

/-- Model of the calendar normalization performed by new Date(y, m-1, d)
followed by reading the date components back, for 1 ≤ m ≤ 12 and
1 ≤ d ≤ 31 (the only inputs the source feeds it): a day past the end of
the month rolls into the following month, and d ≤ 31 < 28 + 28 means at
most one month of rollover. -/
def normDate (y m d : Nat) : Nat × Nat × Nat :=
  if d ≤ daysInMonth y m then (y, m, d)
  else if m = 12 then (y + 1, 1, d - daysInMonth y m)
  else (y, m + 1, d - daysInMonth y m)

/-! ## DateNormalizer: Utils.parseFecDate (js/utils.js lines 57-122) -/

/-- Decimal digit test (the regex class of digits). -/
def isDigitB (c : Char) : Bool := ('0' ≤ c) && (c ≤ '9')

/-- All characters are decimal digits. -/
def allDigits (l : List Char) : Bool := l.all isDigitB

/-- Numeric value of a digit string (model of Number / parseInt on an
all-digit string). -/
def digitsToNat (l : List Char) : Nat := l.foldl (fun a c => a * 10 + (c.toNat - 48)) 0

/-- Decimal rendering of a natural number (model of toString). -/
def natDigits (n : Nat) : List Char := (Nat.repr n).data

/-- Model of padStart(2, zero). -/
def pad2 (n : Nat) : List Char := if n < 10 then '0' :: natDigits n else natDigits n

/-- Model of padStart(4, zero). -/
def pad4 (n : Nat) : List Char :=
  List.replicate (4 - (natDigits n).length) '0' ++ natDigits n

/-- The canonical YYYY-MM-DD rendering of the source. -/
def mkYmd (y m d : Nat) : String :=
  String.mk (pad4 y ++ ['-'] ++ pad2 m ++ ['-'] ++ pad2 d)

/-- The date-only part: text before the first space, then before the first
letter T (model of split-space-then-split-T indexing). -/
def dateOnlyL (l : List Char) : List Char :=
  (splitOnCharL 'T' ((splitOnCharL ' ' l).headD [])).headD []

/-- Anchored pattern: four digits, dash, one or two digits, dash, one or
two digits. -/
def patDash (l : List Char) : Bool :=
  match splitOnCharL '-' l with
  | [a, b, c] => a.length = 4 && allDigits a && (1 ≤ b.length && b.length ≤ 2) &&
      allDigits b && (1 ≤ c.length && c.length ≤ 2) && allDigits c
  | _ => false

/-- Anchored pattern: one or two digits, slash, one or two digits, slash,
four digits. -/
def patSlash4 (l : List Char) : Bool :=
  match splitOnCharL '/' l with
  | [a, b, c] => (1 ≤ a.length && a.length ≤ 2) && allDigits a &&
      (1 ≤ b.length && b.length ≤ 2) && allDigits b && c.length = 4 && allDigits c
  | _ => false

/-- Anchored pattern: one or two digits, slash, one or two digits, slash,
exactly two digits. -/
def patSlash2 (l : List Char) : Bool :=
  match splitOnCharL '/' l with
  | [a, b, c] => (1 ≤ a.length && a.length ≤ 2) && allDigits a &&
      (1 ≤ b.length && b.length ≤ 2) && allDigits b && c.length = 2 && allDigits c
  | _ => false

/-- Anchored pattern: exactly eight digits. -/
def pat8 (l : List Char) : Bool := l.length = 8 && allDigits l

/-- Year, month, day of a dash-pattern match. -/
def dashYMD (l : List Char) : Int × Int × Int :=
  match splitOnCharL '-' l with
  | [a, b, c] => ((digitsToNat a : Int), (digitsToNat b : Int), (digitsToNat c : Int))
  | _ => (0, 0, 0)

/-- Year, month, day of a slash-pattern match with four-digit year. -/
def slashMDY4 (l : List Char) : Int × Int × Int :=
  match splitOnCharL '/' l with
  | [a, b, c] => ((digitsToNat c : Int), (digitsToNat a : Int), (digitsToNat b : Int))
  | _ => (0, 0, 0)

/-- The two-digit-year windowing of the source: 00-49 map to 20xx and
50-99 to 19xx. -/
def twoDigitYearMap (y : Nat) : Nat := y + (if y < 50 then 2000 else 1900)

/-- Year, month, day of a slash-pattern match with two-digit year. -/
def slashMDY2 (l : List Char) : Int × Int × Int :=
  match splitOnCharL '/' l with
  | [a, b, c] =>
      ((twoDigitYearMap (digitsToNat c) : Int), (digitsToNat a : Int), (digitsToNat b : Int))
  | _ => (0, 0, 0)

/-- Year, month, day of an eight-digit match. -/
def ymd8 (l : List Char) : Int × Int × Int :=
  ((digitsToNat (l.take 4) : Int), (digitsToNat ((l.drop 4).take 2) : Int),
   (digitsToNat (l.drop 6) : Int))

/-- The raw year-month-day extraction of Utils.parseFecDate: the four
anchored patterns tried in order on the date-only part, then as a last
resort the generic JavaScript Date constructor on the full trimmed text,
modelled by the parameter fb (fb returns none when the host date parse
yields NaN). -/
def extractYMD (fb : String → Option (Int × Int × Int)) (t dOnly : List Char) :
    Option (Int × Int × Int) :=
  if patDash dOnly then some (dashYMD dOnly)
  else if patSlash4 dOnly then some (slashMDY4 dOnly)
  else if patSlash2 dOnly then some (slashMDY2 dOnly)
  else if pat8 dOnly then some (ymd8 dOnly)
  else fb (String.mk t)

/-- Rendering plus epoch of a normalized date triple. -/
def ymdEpochOf (t : Nat × Nat × Nat) : String × Int :=
  (mkYmd t.1 t.2.1 t.2.2, dateUTC t.1 t.2.1 t.2.2)

/-- Embedding of Utils.parseFecDate; the JavaScript result with null
fields is modelled as none. -/
def parseFecDate (fb : String → Option (Int × Int × Int)) (input : String) :
    Option (String × Int) :=
  if trimL input.data = [] then none
  else
    match extractYMD fb (trimL input.data) (dateOnlyL (trimL input.data)) with
    | none => none
    | some (y, m, d) =>
      if y = 0 || y < 1900 || y > 2100 || m = 0 || m < 1 || m > 12 ||
          d = 0 || d < 1 || d > 31 then none
      else some (ymdEpochOf (normDate y.toNat m.toNat d.toNat))

/-- Claim C3: date normalization is canonicalizing and total over its
accepted formats; the three sample formats agree on 2024-01-05 and its
UTC-midnight epoch, a two-digit year is windowed (00-49 to 20xx, 50-99 to
19xx), Feb 30 rolls over to Mar 1, and empty input, month or day out of
range before normalization (sample 13/40/2024), or year outside 1900-2100
give the null result. -/
theorem C3_date_normalization :
    (∀ fb, parseFecDate fb "2024-1-5" = some ("2024-01-05", dateUTC 2024 1 5)) ∧
    (∀ fb, parseFecDate fb "1/5/2024" = some ("2024-01-05", dateUTC 2024 1 5)) ∧
    (∀ fb, parseFecDate fb "20240105" = some ("2024-01-05", dateUTC 2024 1 5)) ∧
    dateUTC 2024 1 5 = 1704412800000 ∧
    (∀ fb yy, yy < 100 →
      parseFecDate fb (String.mk (['1', '/', '5', '/'] ++ pad2 yy)) =
        some (mkYmd (twoDigitYearMap yy) 1 5, dateUTC (twoDigitYearMap yy) 1 5)) ∧
    (∀ yy, yy ≤ 49 → twoDigitYearMap yy = 2000 + yy) ∧
    (∀ yy, 50 ≤ yy → yy ≤ 99 → twoDigitYearMap yy = 1900 + yy) ∧
    (∀ fb, parseFecDate fb "2/30/2024" = some ("2024-03-01", dateUTC 2024 3 1)) ∧
    (∀ fb s, trimL s.data = [] → parseFecDate fb s = none) ∧
    (∀ fb, parseFecDate fb "13/40/2024" = none) ∧
    (∀ fb s y m d,
      extractYMD fb (trimL s.data) (dateOnlyL (trimL s.data)) = some (y, m, d) →
      (y < 1900 ∨ y > 2100 ∨ m < 1 ∨ m > 12 ∨ d < 1 ∨ d > 31) →
      parseFecDate fb s = none) := by
  refine ⟨fun fb => rfl, fun fb => rfl, fun fb => rfl, rfl, ?_, ?_, ?_,
    fun fb => rfl, ?_, fun fb => rfl, ?_⟩
  · intro fb yy h
    interval_cases yy <;> rfl
  · intro yy h
    simp [twoDigitYearMap, Nat.lt_succ_of_le h, if_pos (Nat.lt_succ_of_le h)]
    omega
  · intro yy h _
    have : ¬ yy < 50 := by omega
    simp [twoDigitYearMap, this]
    omega
  · intro fb s h
    simp [parseFecDate, h]
  · intro fb s y m d hex hrange
    by_cases ht : trimL s.data = []
    · simp [parseFecDate, ht]
    · have hcond : (decide (y = 0) || decide (y < 1900) || decide (y > 2100) ||
          decide (m = 0) || decide (m < 1) || decide (m > 12) ||
          decide (d = 0) || decide (d < 1) || decide (d > 31)) = true := by
        rcases hrange with h | h | h | h | h | h <;> simp [h]
      simp [parseFecDate, ht, hex, hcond]

/-- Claim C3 witness: the universally quantified parts of the theorem
applied at concrete inputs (a constant-none fallback, the two-digit year
49, a whitespace-only input, and a month of zero). -/
theorem C3_date_normalization_witness :
    parseFecDate (fun _ => none) (String.mk (['1', '/', '5', '/'] ++ pad2 49)) =
      some (mkYmd (twoDigitYearMap 49) 1 5, dateUTC (twoDigitYearMap 49) 1 5) ∧
    parseFecDate (fun _ => none) "   " = none ∧
    parseFecDate (fun _ => none) "0/5/2024" = none := by
  refine ⟨C3_date_normalization.2.2.2.2.1 (fun _ => none) 49 (by decide), ?_, ?_⟩
  · exact C3_date_normalization.2.2.2.2.2.2.2.2.1 (fun _ => none) "   " (by decide)
  · exact C3_date_normalization.2.2.2.2.2.2.2.2.2.2 (fun _ => none) "0/5/2024" 2024 0 5
      (by rfl) (Or.inr (Or.inr (Or.inl (by decide))))

/-! ## CsvTokenizer: Utils.parseCSV (js/utils.js lines 129-175) -/

/-- Append the finished row to the output, but only when some field is
non-empty (the blank-row drop of the source). -/
def pushRow (rows : List (List (List Char))) (row : List (List Char)) :
    List (List (List Char)) :=
  if row.any (fun f => f ≠ []) then rows ++ [row] else rows

/-- Embedding of the character scan of Utils.parseCSV.  The arguments are
a fuel counter (any value at least the input length gives the scan of the
source, since the scan consumes at least one character per step), the
quoted-field state, the emitted rows, the fields of the current row, the
characters of the current field, and the remaining input.  At the end of
the input the final field and row are flushed. -/
def parseCSVAux : Nat → Bool → List (List (List Char)) → List (List Char) → List Char →
    List Char → List (List (List Char))
  | _, _, rows, row, field, [] => pushRow rows (row ++ [trimL field])
  | 0, _, rows, row, field, _ :: _ => pushRow rows (row ++ [trimL field])
  | f + 1, true, rows, row, field, c :: rest =>
      if c = dquoteChar then
        match rest with
        | c2 :: rest2 =>
          if c2 = dquoteChar then parseCSVAux f true rows row (field ++ [dquoteChar]) rest2
          else parseCSVAux f false rows row field rest
        | [] => parseCSVAux f false rows row field []
      else parseCSVAux f true rows row (field ++ [c]) rest
  | f + 1, false, rows, row, field, c :: rest =>
      if c = dquoteChar then parseCSVAux f true rows row field rest
      else if c = ',' then parseCSVAux f false rows (row ++ [trimL field]) [] rest
      else if c = Char.ofNat 10 then
        parseCSVAux f false (pushRow rows (row ++ [trimL field])) [] [] rest
      else if c = Char.ofNat 13 then parseCSVAux f false rows row field rest
      else parseCSVAux f false rows row (field ++ [c]) rest

/-- Embedding of Utils.parseCSV on character lists. -/
def parseCSVRows (l : List Char) : List (List (List Char)) :=
  parseCSVAux l.length false [] [] [] l

/-- Embedding of Utils.parseCSV. -/
def parseCSV (text : String) : List (List String) :=
  (parseCSVRows text.data).map (List.map String.mk)

/-- A field with no leading and no trailing whitespace character. -/
def noEdgeWs (f : List Char) : Prop :=
  (∀ c, f.head? = some c → isWsChar c = false) ∧
  (∀ c, f.reverse.head? = some c → isWsChar c = false)

theorem head?_dropWhile_ws (l : List Char) (c : Char)
    (h : (l.dropWhile isWsChar).head? = some c) : isWsChar c = false := by
  induction l with
  | nil => simp [List.dropWhile] at h
  | cons a t ih =>
    by_cases ha : isWsChar a = true
    · rw [List.dropWhile_cons, if_pos ha] at h
      exact ih h
    · rw [List.dropWhile_cons, if_neg ha] at h
      simp at h
      subst h
      simpa using ha

theorem getLast?_dropWhile_ws (l : List Char) (hne : l.dropWhile isWsChar ≠ []) :
    (l.dropWhile isWsChar).getLast? = l.getLast? := by
  induction l with
  | nil => simp [List.dropWhile] at hne
  | cons a t ih =>
    by_cases ha : isWsChar a = true
    · rw [List.dropWhile_cons, if_pos ha] at hne ⊢
      cases t with
      | nil => simp [List.dropWhile] at hne
      | cons b t2 => rw [ih hne, List.getLast?_cons_cons]
    · rw [List.dropWhile_cons, if_neg ha]

theorem trimL_noEdgeWs (l : List Char) : noEdgeWs (trimL l) := by
  constructor
  · intro c h
    unfold trimL at h
    rw [List.head?_reverse] at h
    have hne : (trimLeftL l).reverse.dropWhile isWsChar ≠ [] := by
      intro hnil
      rw [hnil] at h
      simp at h
    rw [getLast?_dropWhile_ws _ hne, List.getLast?_reverse] at h
    exact head?_dropWhile_ws l c h
  · intro c h
    unfold trimL at h
    rw [List.reverse_reverse] at h
    exact head?_dropWhile_ws (trimLeftL l).reverse c h

/-- The output invariant of the tokenizer: every emitted row has a
non-empty field and every emitted field is trimmed at both edges. -/
def rowsOk (rows : List (List (List Char))) : Prop :=
  ∀ r ∈ rows, (∃ f ∈ r, f ≠ []) ∧ ∀ f ∈ r, noEdgeWs f

theorem pushRow_ok (rows : List (List (List Char))) (row : List (List Char))
    (hrows : rowsOk rows) (hrow : ∀ f ∈ row, noEdgeWs f) :
    rowsOk (pushRow rows row) := by
  unfold pushRow
  by_cases h : row.any (fun f => f ≠ []) = true
  · rw [if_pos h]
    intro r hr
    rcases List.mem_append.1 hr with hr | hr
    · exact hrows r hr
    · have : r = row := by simpa using hr
      subst this
      refine ⟨?_, hrow⟩
      simpa using h
  · rw [if_neg h]
    exact hrows

theorem parseCSVAux_ok (fuel : Nat) : ∀ (l : List Char) (q : Bool) rows row field,
    rowsOk rows → (∀ f ∈ row, noEdgeWs f) →
    rowsOk (parseCSVAux fuel q rows row field l) := by
  induction fuel with
  | zero =>
    intro l q rows row field hrows hrow
    have hflush : ∀ f ∈ row ++ [trimL field], noEdgeWs f := by
      intro f hf
      rcases List.mem_append.1 hf with hf | hf
      · exact hrow f hf
      · have : f = trimL field := by simpa using hf
        rw [this]; exact trimL_noEdgeWs field
    cases l with
    | nil => exact pushRow_ok _ _ hrows hflush
    | cons c rest => cases q <;> exact pushRow_ok _ _ hrows hflush
  | succ f ih =>
    intro l q rows row field hrows hrow
    have hflush : ∀ g ∈ row ++ [trimL field], noEdgeWs g := by
      intro g hg
      rcases List.mem_append.1 hg with hg | hg
      · exact hrow g hg
      · have : g = trimL field := by simpa using hg
        rw [this]; exact trimL_noEdgeWs field
    cases l with
    | nil => cases q <;> exact pushRow_ok _ _ hrows hflush
    | cons c rest =>
      cases q with
      | true =>
        show rowsOk (if c = dquoteChar then _ else _)
        by_cases hc : c = dquoteChar
        · rw [if_pos hc]
          cases rest with
          | nil => exact ih [] false rows row field hrows hrow
          | cons c2 rest2 =>
            show rowsOk (if c2 = dquoteChar
              then parseCSVAux f true rows row (field ++ [dquoteChar]) rest2
              else parseCSVAux f false rows row field (c2 :: rest2))
            by_cases hc2 : c2 = dquoteChar
            · rw [if_pos hc2]
              exact ih rest2 true rows row (field ++ [dquoteChar]) hrows hrow
            · rw [if_neg hc2]
              exact ih (c2 :: rest2) false rows row field hrows hrow
        · rw [if_neg hc]
          exact ih rest true rows row (field ++ [c]) hrows hrow
      | false =>
        show rowsOk (if c = dquoteChar then _ else _)
        by_cases h1 : c = dquoteChar
        · rw [if_pos h1]
          exact ih rest true rows row field hrows hrow
        · rw [if_neg h1]
          by_cases h2 : c = ','
          · rw [if_pos h2]
            exact ih rest false rows (row ++ [trimL field]) [] hrows hflush
          · rw [if_neg h2]
            by_cases h3 : c = Char.ofNat 10
            · rw [if_pos h3]
              exact ih rest false _ [] [] (pushRow_ok _ _ hrows hflush) (by simp)
            · rw [if_neg h3]
              by_cases h4 : c = Char.ofNat 13
              · rw [if_pos h4]
                exact ih rest false rows row field hrows hrow
              · rw [if_neg h4]
                exact ih rest false rows row (field ++ [c]) hrows hrow

/-- The concrete tokenizer input of the claim, with an embedded quoted
field. -/
def csvSample : String :=
  "a," ++ String.mk [dquoteChar] ++ "b,c" ++ String.mk [dquoteChar] ++ ",d\ne,f,g"

/-- Claim C7: the CSV tokenizer handles quoted fields with doubled quotes,
drops carriage returns outside quotes, trims every emitted field, drops
all-empty rows, and flushes the final field and row at end of input; the
sample input with an embedded quoted comma parses to the two expected
rows. -/
theorem C7_csv_tokenizer :
    parseCSV csvSample = [["a", "b,c", "d"], ["e", "f", "g"]] ∧
    parseCSV "a,b\r\nc,d" = [["a", "b"], ["c", "d"]] ∧
    parseCSV (String.mk ([dquoteChar, 'x', dquoteChar, dquoteChar, 'y', dquoteChar])) =
      [[String.mk ['x', dquoteChar, 'y']]] ∧
    parseCSV " a , b " = [["a", "b"]] ∧
    parseCSV "a,b\n\n  ,  \n" = [["a", "b"]] ∧
    (∀ text : String, ∀ r ∈ parseCSVRows text.data,
      (∃ f ∈ r, f ≠ []) ∧ ∀ f ∈ r, noEdgeWs f) := by
  refine ⟨rfl, rfl, rfl, rfl, rfl, ?_⟩
  intro text r hr
  exact parseCSVAux_ok text.data.length text.data false [] [] []
    (by intro r hr; simp at hr) (by simp) r hr

/-- Claim C7 witness: the general invariant of the theorem applied to a
concrete input and row. -/
theorem C7_csv_tokenizer_witness :
    (∃ f ∈ [['a'], ['b']], f ≠ []) ∧ ∀ f ∈ [['a'], ['b']], noEdgeWs f := by
  have hmem : [['a'], ['b']] ∈ parseCSVRows ("a,b" : String).data := by decide
  exact C7_csv_tokenizer.2.2.2.2.2 "a,b" [['a'], ['b']] hmem

/-! ## SimilarityMatcher: Utils.levenshteinDistance and Utils.similarityScore
(js/utils.js lines 223-265) -/

/-- One row step of the dynamic programming matrix of the source: given
row i as a function of the column, produce row i+1.  A cell copies the
diagonal on equal characters, otherwise it is one plus the minimum of the
diagonal, left and upper neighbours (the source adds one to each of the
three before taking the minimum, which is the same number). -/
def levNextRow (s1 s2 : List Char) (i : Nat) (prev : Nat → Nat) : Nat → Nat
  | 0 => i + 1
  | j + 1 =>
      if s1.getD i ' ' = s2.getD j ' ' then prev j
      else min (min (prev j) (levNextRow s1 s2 i prev j)) (prev (j + 1)) + 1

/-- Row i of the matrix; row 0 is the initialized first row. -/
def levRow (s1 s2 : List Char) : Nat → Nat → Nat
  | 0 => fun j => j
  | i + 1 => levNextRow s1 s2 i (levRow s1 s2 i)

/-- The matrix entry at row i, column j of the loop of the source. -/
def matLev (s1 s2 : List Char) (i j : Nat) : Nat := levRow s1 s2 i j

/-- Embedding of Utils.levenshteinDistance: lower-case both inputs, then
read the bottom-right matrix entry. -/
def levenshteinDistance (a b : List Char) : Nat :=
  matLev (toLowerL a) (toLowerL b) (toLowerL a).length (toLowerL b).length

/-- The classic unit-cost Levenshtein distance (the specification the
claim refers to, written as the textbook recursion). -/
def levSpec : List Char → List Char → Nat
  | [], ys => ys.length
  | _ :: xs, [] => xs.length + 1
  | x :: xs, y :: ys =>
      if x = y then levSpec xs ys
      else min (min (levSpec xs ys) (levSpec (x :: xs) ys)) (levSpec xs (y :: ys)) + 1

theorem levSpec_nil_left (ys : List Char) : levSpec [] ys = ys.length := by
  cases ys <;> simp [levSpec]

theorem levSpec_nil_right (xs : List Char) : levSpec xs [] = xs.length := by
  cases xs <;> simp [levSpec]

theorem levSpec_cons_cons (x y : Char) (xs ys : List Char) :
    levSpec (x :: xs) (y :: ys) =
      if x = y then levSpec xs ys
      else min (min (levSpec xs ys) (levSpec (x :: xs) ys)) (levSpec xs (y :: ys)) + 1 := by
  simp [levSpec]

theorem matLev_zero (s1 s2 : List Char) (j : Nat) : matLev s1 s2 0 j = j := rfl

theorem matLev_succ_zero (s1 s2 : List Char) (i : Nat) : matLev s1 s2 (i + 1) 0 = i + 1 := rfl

theorem matLev_succ_succ (s1 s2 : List Char) (i j : Nat) :
    matLev s1 s2 (i + 1) (j + 1) =
      if s1.getD i ' ' = s2.getD j ' ' then matLev s1 s2 i j
      else min (min (matLev s1 s2 i j) (matLev s1 s2 (i + 1) j)) (matLev s1 s2 i (j + 1)) + 1 := rfl

/-- The four one-character monotonicity bounds of the Levenshtein
distance, proved together by strong induction on the total length. -/
theorem levSpec_adjacent : ∀ n xs ys, xs.length + ys.length ≤ n →
    (∀ x : Char, levSpec (x :: xs) ys ≤ levSpec xs ys + 1) ∧
    (∀ y : Char, levSpec xs (y :: ys) ≤ levSpec xs ys + 1) ∧
    (∀ x : Char, levSpec xs ys ≤ levSpec (x :: xs) ys + 1) ∧
    (∀ y : Char, levSpec xs ys ≤ levSpec xs (y :: ys) + 1) := by
  intro n
  induction n with
  | zero =>
    intro xs ys hlen
    have hxs : xs = [] := by cases xs <;> simp_all
    have hys : ys = [] := by cases ys <;> simp_all
    subst hxs; subst hys
    refine ⟨fun x => ?_, fun y => ?_, fun x => ?_, fun y => ?_⟩ <;>
      simp [levSpec_nil_left, levSpec_nil_right]
  | succ n ihn =>
    intro xs ys hlen
    refine ⟨fun x => ?_, fun y => ?_, fun x => ?_, fun y => ?_⟩
    · cases ys with
      | nil => simp [levSpec_nil_right]
      | cons y Y =>
        rw [levSpec_cons_cons]
        by_cases hxy : x = y
        · rw [if_pos hxy]
          have h4 := (ihn xs Y (by simp at hlen ⊢; omega)).2.2.2 y
          omega
        · rw [if_neg hxy]
          omega
    · cases xs with
      | nil => simp [levSpec_nil_left]
      | cons x X =>
        rw [levSpec_cons_cons]
        by_cases hxy : x = y
        · rw [if_pos hxy]
          have h3 := (ihn X ys (by simp at hlen ⊢; omega)).2.2.1 x
          omega
        · rw [if_neg hxy]
          omega
    · cases ys with
      | nil => simp [levSpec_nil_right]; omega
      | cons y Y =>
        rw [levSpec_cons_cons]
        by_cases hxy : x = y
        · rw [if_pos hxy]
          have h2 := (ihn xs Y (by simp at hlen ⊢; omega)).2.1 y
          omega
        · rw [if_neg hxy]
          have h2 := (ihn xs Y (by simp at hlen ⊢; omega)).2.1 y
          have h3 := (ihn xs Y (by simp at hlen ⊢; omega)).2.2.1 x
          omega
    · cases xs with
      | nil => simp [levSpec_nil_left]; omega
      | cons x X =>
        rw [levSpec_cons_cons]
        by_cases hxy : x = y
        · rw [if_pos hxy]
          have h1 := (ihn X ys (by simp at hlen ⊢; omega)).1 x
          omega
        · rw [if_neg hxy]
          have h1 := (ihn X ys (by simp at hlen ⊢; omega)).1 x
          have h4 := (ihn X ys (by simp at hlen ⊢; omega)).2.2.2 y
          omega

theorem levSpec_cons_left_le (x : Char) (xs ys : List Char) :
    levSpec (x :: xs) ys ≤ levSpec xs ys + 1 :=
  (levSpec_adjacent (xs.length + ys.length) xs ys le_rfl).1 x

theorem levSpec_cons_right_le (y : Char) (xs ys : List Char) :
    levSpec xs (y :: ys) ≤ levSpec xs ys + 1 :=
  (levSpec_adjacent (xs.length + ys.length) xs ys le_rfl).2.1 y

/-- An alignment step: a matched pair of characters, a character only of
the left word, or a character only of the right word. -/
inductive AStep where
  | pair (a b : Char)
  | onlyL (a : Char)
  | onlyR (b : Char)
deriving DecidableEq

/-- The left word of an alignment. -/
def alignL : List AStep → List Char
  | [] => []
  | .pair a _ :: es => a :: alignL es
  | .onlyL a :: es => a :: alignL es
  | .onlyR _ :: es => alignL es

/-- The right word of an alignment. -/
def alignR : List AStep → List Char
  | [] => []
  | .pair _ b :: es => b :: alignR es
  | .onlyL _ :: es => alignR es
  | .onlyR b :: es => b :: alignR es

/-- The cost of an alignment: one per unmatched or mismatched character. -/
def alignCost : List AStep → Nat
  | [] => 0
  | .pair a b :: es => (if a = b then 0 else 1) + alignCost es
  | .onlyL _ :: es => 1 + alignCost es
  | .onlyR _ :: es => 1 + alignCost es

theorem levSpec_le_alignCost (es : List AStep) :
    levSpec (alignL es) (alignR es) ≤ alignCost es := by
  induction es with
  | nil => simp [alignL, alignR, alignCost, levSpec_nil_left]
  | cons st es ih =>
    cases st with
    | pair a b =>
      show levSpec (a :: alignL es) (b :: alignR es) ≤ (if a = b then 0 else 1) + alignCost es
      rw [levSpec_cons_cons]
      by_cases hab : a = b
      · rw [if_pos hab, if_pos hab]
        omega
      · rw [if_neg hab, if_neg hab]
        omega
    | onlyL a =>
      show levSpec (a :: alignL es) (alignR es) ≤ 1 + alignCost es
      have := levSpec_cons_left_le a (alignL es) (alignR es)
      omega
    | onlyR b =>
      show levSpec (alignL es) (b :: alignR es) ≤ 1 + alignCost es
      have := levSpec_cons_right_le b (alignL es) (alignR es)
      omega

theorem alignL_map_onlyR (ys : List Char) : alignL (ys.map AStep.onlyR) = [] := by
  induction ys with
  | nil => rfl
  | cons y Y ih => simpa [alignL] using ih

theorem alignR_map_onlyR (ys : List Char) : alignR (ys.map AStep.onlyR) = ys := by
  induction ys with
  | nil => rfl
  | cons y Y ih => simpa [alignR] using ih

theorem alignCost_map_onlyR (ys : List Char) : alignCost (ys.map AStep.onlyR) = ys.length := by
  induction ys with
  | nil => rfl
  | cons y Y ih => simp [alignCost, ih]; omega

theorem alignL_map_onlyL (xs : List Char) : alignL (xs.map AStep.onlyL) = xs := by
  induction xs with
  | nil => rfl
  | cons x X ih => simpa [alignL] using ih

theorem alignR_map_onlyL (xs : List Char) : alignR (xs.map AStep.onlyL) = [] := by
  induction xs with
  | nil => rfl
  | cons x X ih => simpa [alignR] using ih

theorem alignCost_map_onlyL (xs : List Char) : alignCost (xs.map AStep.onlyL) = xs.length := by
  induction xs with
  | nil => rfl
  | cons x X ih => simp [alignCost, ih]; omega

/-- Every pair of words admits an alignment whose cost is exactly the
Levenshtein distance (by strong induction following the recursion). -/
theorem exists_align : ∀ n xs ys, xs.length + ys.length ≤ n →
    ∃ es, alignL es = xs ∧ alignR es = ys ∧ alignCost es = levSpec xs ys := by
  intro n
  induction n with
  | zero =>
    intro xs ys hlen
    have hxs : xs = [] := by cases xs <;> simp_all
    have hys : ys = [] := by cases ys <;> simp_all
    subst hxs; subst hys
    exact ⟨[], rfl, rfl, by simp [alignCost, levSpec_nil_left]⟩
  | succ n ihn =>
    intro xs ys hlen
    cases xs with
    | nil =>
      exact ⟨ys.map AStep.onlyR, alignL_map_onlyR ys, alignR_map_onlyR ys, by
        rw [alignCost_map_onlyR, levSpec_nil_left]⟩
    | cons x X =>
      cases ys with
      | nil =>
        exact ⟨(x :: X).map AStep.onlyL, alignL_map_onlyL _, alignR_map_onlyL _, by
          rw [alignCost_map_onlyL, levSpec_nil_right]⟩
      | cons y Y =>
        have hXY : X.length + Y.length ≤ n := by simp at hlen; omega
        have hxY : (x :: X).length + Y.length ≤ n := by simp at hlen ⊢; omega
        have hXy : X.length + (y :: Y).length ≤ n := by simp at hlen ⊢; omega
        by_cases hxy : x = y
        · obtain ⟨es, h1, h2, h3⟩ := ihn X Y hXY
          refine ⟨AStep.pair x y :: es, by simp [alignL, h1], by simp [alignR, h2], ?_⟩
          rw [levSpec_cons_cons, if_pos hxy]
          simp [alignCost, hxy, h3]
        · have hsplit : min (min (levSpec X Y) (levSpec (x :: X) Y)) (levSpec X (y :: Y)) =
              levSpec X Y ∨
              min (min (levSpec X Y) (levSpec (x :: X) Y)) (levSpec X (y :: Y)) =
              levSpec (x :: X) Y ∨
              min (min (levSpec X Y) (levSpec (x :: X) Y)) (levSpec X (y :: Y)) =
              levSpec X (y :: Y) := by omega
          rcases hsplit with hm | hm | hm
          · obtain ⟨es, h1, h2, h3⟩ := ihn X Y hXY
            refine ⟨AStep.pair x y :: es, by simp [alignL, h1], by simp [alignR, h2], ?_⟩
            rw [levSpec_cons_cons, if_neg hxy, hm]
            simp [alignCost, hxy, h3]
            omega
          · obtain ⟨es, h1, h2, h3⟩ := ihn (x :: X) Y hxY
            refine ⟨AStep.onlyR y :: es, by simp [alignL, h1], by simp [alignR, h2], ?_⟩
            rw [levSpec_cons_cons, if_neg hxy, hm]
            simp [alignCost, h3]
            omega
          · obtain ⟨es, h1, h2, h3⟩ := ihn X (y :: Y) hXy
            refine ⟨AStep.onlyL x :: es, by simp [alignL, h1], by simp [alignR, h2], ?_⟩
            rw [levSpec_cons_cons, if_neg hxy, hm]
            simp [alignCost, h3]
            omega

theorem alignL_append (es1 es2 : List AStep) :
    alignL (es1 ++ es2) = alignL es1 ++ alignL es2 := by
  induction es1 with
  | nil => rfl
  | cons st es ih => cases st <;> simp [alignL, ih]

theorem alignR_append (es1 es2 : List AStep) :
    alignR (es1 ++ es2) = alignR es1 ++ alignR es2 := by
  induction es1 with
  | nil => rfl
  | cons st es ih => cases st <;> simp [alignR, ih]

theorem alignCost_append (es1 es2 : List AStep) :
    alignCost (es1 ++ es2) = alignCost es1 + alignCost es2 := by
  induction es1 with
  | nil => simp [alignCost]
  | cons st es ih => cases st <;> simp [alignCost, ih] <;> omega

theorem alignL_reverse (es : List AStep) : alignL es.reverse = (alignL es).reverse := by
  induction es with
  | nil => rfl
  | cons st es ih =>
    cases st <;> simp [alignL, List.reverse_cons, alignL_append, ih]

theorem alignR_reverse (es : List AStep) : alignR es.reverse = (alignR es).reverse := by
  induction es with
  | nil => rfl
  | cons st es ih =>
    cases st <;> simp [alignR, List.reverse_cons, alignR_append, ih]

theorem alignCost_reverse (es : List AStep) : alignCost es.reverse = alignCost es := by
  induction es with
  | nil => rfl
  | cons st es ih =>
    cases st <;> simp [alignCost, List.reverse_cons, alignCost_append, ih] <;> omega

/-- The Levenshtein distance is invariant under reversing both words:
reverse a minimal alignment. -/
theorem levSpec_reverse (xs ys : List Char) :
    levSpec xs.reverse ys.reverse = levSpec xs ys := by
  have hle : ∀ u v : List Char, levSpec u.reverse v.reverse ≤ levSpec u v := by
    intro u v
    obtain ⟨es, h1, h2, h3⟩ := exists_align (u.length + v.length) u v le_rfl
    have := levSpec_le_alignCost es.reverse
    rw [alignL_reverse, alignR_reverse, alignCost_reverse, h1, h2, h3] at this
    exact this
  have h1 := hle xs ys
  have h2 := hle xs.reverse ys.reverse
  rw [List.reverse_reverse, List.reverse_reverse] at h2
  omega

/-- The matrix cell i j is the Levenshtein distance of the reversed
prefixes of lengths i and j. -/
theorem matLev_eq (s1 s2 : List Char) : ∀ i, i ≤ s1.length → ∀ j, j ≤ s2.length →
    matLev s1 s2 i j = levSpec (s1.take i).reverse (s2.take j).reverse := by
  intro i
  induction i with
  | zero =>
    intro _ j hj
    rw [matLev_zero]
    simp [levSpec_nil_left, Nat.min_eq_left hj]
  | succ i ihi =>
    intro hi1 j
    have hi : i < s1.length := hi1
    have htake1 : (s1.take (i + 1)).reverse = s1[i] :: (s1.take i).reverse := by
      rw [List.take_succ, List.getElem?_eq_getElem hi]
      simp
    induction j with
    | zero =>
      intro _
      rw [matLev_succ_zero]
      simp [htake1, levSpec_nil_right, Nat.min_eq_left (le_of_lt hi)]
    | succ j ihj =>
      intro hj1
      have hj : j < s2.length := hj1
      have htake2 : (s2.take (j + 1)).reverse = s2[j] :: (s2.take j).reverse := by
        rw [List.take_succ, List.getElem?_eq_getElem hj]
        simp
      have hg1 : s1.getD i ' ' = s1[i] := by
        simp [List.getD, List.getElem?_eq_getElem hi]
      have hg2 : s2.getD j ' ' = s2[j] := by
        simp [List.getD, List.getElem?_eq_getElem hj]
      rw [matLev_succ_succ, htake1, htake2, levSpec_cons_cons, hg1, hg2]
      rw [ihi (le_of_lt hi) j (le_of_lt hj), ihi (le_of_lt hi) (j + 1) hj1,
        ihj (le_of_lt hj), htake1, htake2]

/-- The source matrix computes the classic Levenshtein distance. -/
theorem levenshteinDistance_eq_levSpec (a b : List Char) :
    levenshteinDistance a b = levSpec (toLowerL a) (toLowerL b) := by
  unfold levenshteinDistance
  rw [matLev_eq _ _ _ le_rfl _ le_rfl, List.take_length, List.take_length,
    levSpec_reverse]

/-- The Levenshtein distance is at most the longer length. -/
theorem levSpec_le_max : ∀ n xs ys, xs.length + ys.length ≤ n →
    levSpec xs ys ≤ max xs.length ys.length := by
  intro n
  induction n with
  | zero =>
    intro xs ys hlen
    have hxs : xs = [] := by cases xs <;> simp_all
    have hys : ys = [] := by cases ys <;> simp_all
    subst hxs; subst hys
    simp [levSpec_nil_left]
  | succ n ihn =>
    intro xs ys hlen
    cases xs with
    | nil => simp [levSpec_nil_left]
    | cons x X =>
      cases ys with
      | nil => simp [levSpec_nil_right]
      | cons y Y =>
        have hXY : X.length + Y.length ≤ n := by simp at hlen; omega
        have h := ihn X Y hXY
        rw [levSpec_cons_cons]
        by_cases hxy : x = y
        · rw [if_pos hxy]
          simp
          omega
        · rw [if_neg hxy]
          simp at h ⊢
          omega

/-- Embedding of Utils.similarityScore.  The source computes one minus
the distance divided by the longer original length; when both strings are
empty the division is zero by zero, which is NaN in the host language and
is modelled as none here. -/
def similarityScore (a b : String) : Option ℚ :=
  if max a.data.length b.data.length = 0 then none
  else some (1 - (levenshteinDistance a.data b.data : ℚ) /
    ((max a.data.length b.data.length : Nat) : ℚ))

/-- Claim C4, counterexample: on two empty strings the score is zero by
zero, NaN in the host language (modelled none), so the result is not a
number in the unit interval. -/
theorem C4_counterexample :
    similarityScore "" "" = none ∧
      ¬ ∃ q : ℚ, similarityScore "" "" = some q ∧ 0 ≤ q ∧ q ≤ 1 := by
  refine ⟨rfl, ?_⟩
  rintro ⟨q, hq, -, -⟩
  rw [show similarityScore "" "" = none from rfl] at hq
  cases hq

/-- Claim C4 (amended): whenever the two strings are not both empty, the
similarity score equals one minus the classic unit-cost Levenshtein
distance of the lower-cased strings divided by the longer original
length, and lies in the unit interval; the score of smith with itself is
one and with smyth is four fifths.  (On two empty strings the division is
zero by zero and the host result is NaN, modelled none.) -/
theorem C4_match_score (a b : String) (h : 0 < max a.data.length b.data.length) :
    similarityScore a b =
      some (1 - (levSpec (toLowerL a.data) (toLowerL b.data) : ℚ) /
        ((max a.data.length b.data.length : Nat) : ℚ)) ∧
    (∀ q : ℚ, similarityScore a b = some q → 0 ≤ q ∧ q ≤ 1) ∧
    similarityScore "smith" "smith" = some 1 ∧
    similarityScore "smith" "smyth" = some (4 / 5) := by
  have hne : ¬ max a.data.length b.data.length = 0 := by omega
  have hform : similarityScore a b =
      some (1 - (levSpec (toLowerL a.data) (toLowerL b.data) : ℚ) /
        ((max a.data.length b.data.length : Nat) : ℚ)) := by
    unfold similarityScore
    rw [if_neg hne, levenshteinDistance_eq_levSpec]
  have hd1 : levenshteinDistance ("smith" : String).data ("smith" : String).data = 0 := by
    decide
  have hd2 : levenshteinDistance ("smith" : String).data ("smyth" : String).data = 1 := by
    decide
  refine ⟨hform, ?_, ?_, ?_⟩
  · intro q hq
    rw [hform] at hq
    have hq2 : q = 1 - (levSpec (toLowerL a.data) (toLowerL b.data) : ℚ) /
        ((max a.data.length b.data.length : Nat) : ℚ) := (Option.some.inj hq).symm
    have hdle : levSpec (toLowerL a.data) (toLowerL b.data) ≤
        max a.data.length b.data.length := by
      have := levSpec_le_max ((toLowerL a.data).length + (toLowerL b.data).length)
        (toLowerL a.data) (toLowerL b.data) le_rfl
      simpa [toLowerL] using this
    have hmpos : (0 : ℚ) < ((max a.data.length b.data.length : Nat) : ℚ) := by
      exact_mod_cast h
    have hfrac0 : (0 : ℚ) ≤ (levSpec (toLowerL a.data) (toLowerL b.data) : ℚ) /
        ((max a.data.length b.data.length : Nat) : ℚ) :=
      div_nonneg (by positivity) (le_of_lt hmpos)
    have hfrac1 : (levSpec (toLowerL a.data) (toLowerL b.data) : ℚ) /
        ((max a.data.length b.data.length : Nat) : ℚ) ≤ 1 := by
      rw [div_le_one hmpos]
      exact_mod_cast hdle
    constructor
    · rw [hq2]; linarith
    · rw [hq2]; linarith
  · show similarityScore "smith" "smith" = some 1
    unfold similarityScore
    rw [if_neg (by decide), hd1]
    norm_num
  · show similarityScore "smith" "smyth" = some (4 / 5)
    unfold similarityScore
    rw [if_neg (by decide), hd2]
    norm_num

/-- Claim C4 witness: the amended statement applied at two concrete
non-empty strings. -/
theorem C4_match_score_witness :
    similarityScore "ab" "b" =
      some (1 - (levSpec (toLowerL ("ab" : String).data) (toLowerL ("b" : String).data) : ℚ) /
        (max ("ab" : String).data.length ("b" : String).data.length : ℚ)) ∧
    similarityScore "smith" "smyth" = some (4 / 5) :=
  ⟨(C4_match_score "ab" "b" (by decide)).1,
   (C4_match_score "ab" "b" (by decide)).2.2.2⟩

/-! ## Search.isFuzzyMatch (js/search.js lines 18-56) -/

/-- The result record of the fuzzy matcher: matched flag, score, and the
match kind string (exact, fuzzy or none). -/
structure MatchResult where
  matched : Bool
  score : ℚ
  mtype : String
deriving DecidableEq, Repr

/-- The inner word loop: first search word whose similarity with the
donor word reaches the threshold (a NaN score, modelled none, never
compares as reaching the threshold). -/
def wordLoopInner (donorWord : String) (θ : ℚ) : List String → Option ℚ
  | [] => none
  | w :: ws =>
      match similarityScore w donorWord with
      | some q => if θ ≤ q then some q else wordLoopInner donorWord θ ws
      | none => wordLoopInner donorWord θ ws

/-- The outer word loop over the donor words. -/
def wordLoopOuter (searchWords : List String) (θ : ℚ) : List String → Option ℚ
  | [] => none
  | d :: ds =>
      match wordLoopInner d θ searchWords with
      | some q => some q
      | none => wordLoopOuter searchWords θ ds

/-- Embedding of Search.isFuzzyMatch. -/
def isFuzzyMatch (searchTerm firstName lastName : String) (θ : ℚ) : MatchResult :=
  if strContains (jsToLower (firstName ++ " " ++ lastName)) (jsToLower searchTerm) then
    ⟨true, 1, "exact"⟩
  else if strContains (jsToLower firstName) (jsToLower searchTerm) ||
      strContains (jsToLower lastName) (jsToLower searchTerm) then
    ⟨true, 1, "exact"⟩
  else
    match wordLoopOuter
        ((splitOnCharL ' ' (jsToLower searchTerm).data).map String.mk) θ
        ((splitOnCharL ' ' (jsToLower (firstName ++ " " ++ lastName)).data).map String.mk) with
    | some q => ⟨true, q, "fuzzy"⟩
    | none =>
      if 3 ≤ (jsToLower searchTerm).data.length then
        match similarityScore (jsToLower searchTerm)
            (jsToLower (firstName ++ " " ++ lastName)) with
        | some q =>
            if θ ≤ q then ⟨true, q, "fuzzy"⟩ else ⟨false, 0, "none"⟩
        | none => ⟨false, 0, "none"⟩
      else ⟨false, 0, "none"⟩

/-- Claim C10: with the empty search term the matcher always answers an
exact match with score one, for every first name, last name and
threshold, because the empty string is a substring of every full name. -/
theorem C10_empty_search (firstName lastName : String) (θ : ℚ) :
    isFuzzyMatch "" firstName lastName θ = ⟨true, 1, "exact"⟩ := by
  have h : strContains (jsToLower (firstName ++ " " ++ lastName)) (jsToLower "") = true :=
    strContainsL_nil_pat _
  simp [isFuzzyMatch, h]

/-! ## ColumnDetector: ImportExport.findColumnIdx (ImportExport module) -/

/-- Model of the JavaScript findIndex: index of the first element passing
the test, or minus one. -/
def jsFindIndex (p : String → Bool) : List String → Int
  | [] => -1
  | h :: t =>
      if p h then 0
      else if jsFindIndex p t = -1 then -1 else jsFindIndex p t + 1

/-- The header-candidate test of the source: exact equality, header
contains pattern, or pattern contains header. -/
def headerMatch (h c : String) : Bool :=
  h = c || strContains h c || strContains c h

/-- The candidate loop of the source. -/
def findColumnIdxAux (H : List String) : List String → Int
  | [] => -1
  | c :: cs =>
      if jsFindIndex (fun h => headerMatch h c) H ≠ -1 then
        jsFindIndex (fun h => headerMatch h c) H
      else findColumnIdxAux H cs

/-- The header normalization of the source: lower-case, then trim. -/
def normHeader (h : String) : String := jsTrim (jsToLower h)

/-- Embedding of ImportExport.findColumnIdx. -/
def findColumnIdx (headers candidates : List String) : Int :=
  findColumnIdxAux (headers.map normHeader) candidates

theorem getD_mem (L : List String) (n : Nat) (h : n < L.length) : L.getD n "" ∈ L := by
  rw [List.getD_eq_getElem?_getD, List.getElem?_eq_getElem h]
  exact List.getElem_mem h

theorem jsFindIndex_cases (p : String → Bool) : ∀ L : List String,
    (jsFindIndex p L = -1 ∧ ∀ h ∈ L, p h = false) ∨
    (∃ n : Nat, jsFindIndex p L = (n : Int) ∧ n < L.length ∧ p (L.getD n "") = true ∧
      ∀ m, m < n → p (L.getD m "") = false) := by
  intro L
  induction L with
  | nil => exact Or.inl ⟨rfl, by simp⟩
  | cons h t ih =>
    by_cases hp : p h = true
    · refine Or.inr ⟨0, ?_, by simp, by simpa [List.getD] using hp, by omega⟩
      simp [jsFindIndex, hp]
    · have hph : p h = false := by simpa using hp
      rcases ih with ⟨h1, h2⟩ | ⟨n, h1, h2, h3, h4⟩
      · refine Or.inl ⟨?_, ?_⟩
        · simp [jsFindIndex, hph, h1]
        · intro x hx
          rcases List.mem_cons.1 hx with hx | hx
          · rw [hx]; exact hph
          · exact h2 x hx
      · refine Or.inr ⟨n + 1, ?_, by simpa using h2, by simpa [List.getD] using h3, ?_⟩
        · have hne : jsFindIndex p t ≠ -1 := by rw [h1]; omega
          simp [jsFindIndex, hph, if_neg hne, h1]
        · intro m hm
          cases m with
          | zero => simpa [List.getD] using hph
          | succ m2 => simpa [List.getD] using h4 m2 (by omega)

theorem jsFindIndex_neg1_iff (p : String → Bool) (L : List String) :
    jsFindIndex p L = -1 ↔ ∀ h ∈ L, p h = false := by
  rcases jsFindIndex_cases p L with ⟨h1, h2⟩ | ⟨n, h1, h2, h3, h4⟩
  · exact ⟨fun _ => h2, fun _ => h1⟩
  · constructor
    · intro hx; rw [h1] at hx; omega
    · intro hall
      have := hall (L.getD n "") (getD_mem L n h2)
      rw [h3] at this
      cases this

/-- Claim C6: column detection lower-cases and trims the headers, then for
each candidate pattern in order scans the headers for equality or mutual
containment, returning the first satisfying header index of the first
matching pattern; the first matching pattern wins even when a later
pattern would match an earlier header, and minus one is returned exactly
when no candidate matches any header. -/
theorem C6_column_detection :
    (∀ (headers candidates : List String),
      findColumnIdx headers candidates = -1 ↔
        ∀ c ∈ candidates, ∀ h ∈ headers.map normHeader, headerMatch h c = false) ∧
    (∀ (headers candidates : List String) (n : Nat),
      findColumnIdx headers candidates = (n : Int) →
      ∃ k, k < candidates.length ∧
        (∀ k2, k2 < k → ∀ h ∈ headers.map normHeader,
          headerMatch h (candidates.getD k2 "") = false) ∧
        n < headers.length ∧
        headerMatch ((headers.map normHeader).getD n "") (candidates.getD k "") = true ∧
        (∀ m, m < n →
          headerMatch ((headers.map normHeader).getD m "") (candidates.getD k "") = false)) ∧
    findColumnIdx ["alpha", "beta"] ["beta", "alpha"] = 1 := by
  have key : ∀ (H : List String) (candidates : List String),
      (findColumnIdxAux H candidates = -1 ↔
        ∀ c ∈ candidates, ∀ h ∈ H, headerMatch h c = false) ∧
      (∀ n : Nat, findColumnIdxAux H candidates = (n : Int) →
        ∃ k, k < candidates.length ∧
          (∀ k2, k2 < k → ∀ h ∈ H, headerMatch h (candidates.getD k2 "") = false) ∧
          n < H.length ∧
          headerMatch (H.getD n "") (candidates.getD k "") = true ∧
          (∀ m, m < n → headerMatch (H.getD m "") (candidates.getD k "") = false)) := by
    intro H candidates
    induction candidates with
    | nil =>
      refine ⟨by simp [findColumnIdxAux], ?_⟩
      intro n hn
      simp [findColumnIdxAux] at hn
    | cons c cs ih =>
      rcases jsFindIndex_cases (fun h => headerMatch h c) H with ⟨h1, h2⟩ | ⟨n, h1, h2, h3, h4⟩
      · have hstep : findColumnIdxAux H (c :: cs) = findColumnIdxAux H cs := by
          simp [findColumnIdxAux, h1]
        constructor
        · rw [hstep, ih.1]
          constructor
          · intro hall x hx
            rcases List.mem_cons.1 hx with hx | hx
            · rw [hx]; exact h2
            · exact hall x hx
          · intro hall x hx
            exact hall x (List.mem_cons_of_mem c hx)
        · intro m hm
          rw [hstep] at hm
          obtain ⟨k, hk1, hk2, hk3, hk4, hk5⟩ := ih.2 m hm
          refine ⟨k + 1, by simpa using hk1, ?_, hk3, by simpa [List.getD] using hk4, ?_⟩
          · intro k2 hk2lt
            cases k2 with
            | zero => intro h hh; simpa [List.getD] using h2 h hh
            | succ k3 => simpa [List.getD] using hk2 k3 (by omega)
          · intro m2 hm2
            simpa [List.getD] using hk5 m2 hm2
      · have hne : jsFindIndex (fun h => headerMatch h c) H ≠ -1 := by rw [h1]; omega
        have hstep : findColumnIdxAux H (c :: cs) = (n : Int) := by
          simp [findColumnIdxAux, if_pos hne, h1]
        constructor
        · rw [hstep]
          constructor
          · intro hx; omega
          · intro hall
            have := hall c (List.mem_cons_self c cs) (H.getD n "") (getD_mem H n h2)
            rw [h3] at this
            cases this
        · intro m hm
          rw [hstep] at hm
          have hmn : m = n := by omega
          subst hmn
          exact ⟨0, by simp, by omega, h2, by simpa [List.getD] using h3,
            by simpa [List.getD] using h4⟩
  refine ⟨?_, ?_, ?_⟩
  · intro headers candidates
    exact (key (headers.map normHeader) candidates).1
  · intro headers candidates n hn
    obtain ⟨k, hk1, hk2, hk3, hk4, hk5⟩ := (key (headers.map normHeader) candidates).2 n hn
    exact ⟨k, hk1, hk2, by simpa using hk3, hk4, hk5⟩
  · rfl

/-- Claim C6 witness: the characterization applied at concrete inputs
(a candidate list matching nothing, and the concrete dominance example). -/
theorem C6_column_detection_witness :
    findColumnIdx ["name", "amount"] ["zzz"] = -1 ∧
    findColumnIdx ["alpha", "beta"] ["beta", "alpha"] = 1 := by
  refine ⟨C6_column_detection.1 ["name", "amount"] ["zzz"] |>.2 ?_,
    C6_column_detection.2.2⟩
  decide

/-! ## Amount parsing and rounding (ImportExport.smartImport row loop and
UI.addDonorFromModal) -/

/-- JavaScript Math.round on exact rationals: round half toward positive
infinity (the floor of the value plus one half). -/
def jsRound (q : ℚ) : Int := Rat.floor (q + 1 / 2)

theorem jsRound_eq_floor (q : ℚ) : jsRound q = ⌊q + 1 / 2⌋ := by
  unfold jsRound
  rw [Rat.floor_def' (q + 1 / 2), Rat.floor_def]

/-- The two-fraction-digit rounding of the source: Math.round(x * 100) / 100. -/
def round2 (q : ℚ) : ℚ := (jsRound (q * 100) : ℚ) / 100

/-- Keep only digits, dots and minus signs (the replace on the raw amount
text of the source). -/
def stripAmountChars (l : List Char) : List Char :=
  l.filter (fun c => isDigitB c || c = '.' || c = '-')

/-- Value of a fraction-digit block: digits d1 d2 ... give 0.d1d2... -/
def fracValue (l : List Char) : ℚ := (digitsToNat l : ℚ) / ((10 : ℚ) ^ l.length)

/-- Magnitude part of the JavaScript parseFloat on text of digits, dots
and minus signs: greedy digits, then an optional dot and greedy fraction
digits; NaN (none) when no digit was consumed. -/
def jsParseFloatMag (l : List Char) : Option ℚ :=
  match l.drop (l.takeWhile isDigitB).length with
  | '.' :: rest2 =>
      if l.takeWhile isDigitB = [] ∧ rest2.takeWhile isDigitB = [] then none
      else some ((digitsToNat (l.takeWhile isDigitB) : ℚ) + fracValue (rest2.takeWhile isDigitB))
  | _ =>
      if l.takeWhile isDigitB = [] then none
      else some (digitsToNat (l.takeWhile isDigitB))

/-- Model of the JavaScript parseFloat on the stripped amount text (an
optional leading minus sign, then a magnitude; the plus sign cannot occur
because the strip removed it). -/
def jsParseFloat (l : List Char) : Option ℚ :=
  match l with
  | '-' :: rest => (jsParseFloatMag rest).map (fun q => -q)
  | _ => jsParseFloatMag l

/-! ## RecordExtractor: the row loop of ImportExport.smartImport -/

/-- The canonical contribution record built by the import row loop. -/
structure Rec where
  firstName : String
  lastName : String
  candidateName : String
  contributionDate : String
  contributionEpoch : Int
  amount : ℚ
  isRefund : Bool
  entityType : String
  transactionId : String
  employer : String
  occupation : String
  city : String
  state : String
deriving DecidableEq, Repr

/-- The resolved column mapping (minus one means the column is absent). -/
structure Cols where
  firstNameCol : Int
  lastNameCol : Int
  fullNameCol : Int
  candidateCol : Int
  dateCol : Int
  amountCol : Int
  entityTypeCol : Int
  transactionIdCol : Int
  employerCol : Int
  occupationCol : Int
  cityCol : Int
  stateCol : Int
deriving DecidableEq, Repr

/-- Model of indexing a JavaScript array with a possibly negative or
out-of-range index followed by the empty-string fallback. -/
def getField (fields : List String) (i : Int) : String :=
  if i < 0 then "" else fields.getD i.toNat ""

/-- The largest required column index of the source. -/
def maxColIdx (cols : Cols) : Int :=
  max (max (max (max (max cols.firstNameCol cols.lastNameCol) cols.fullNameCol)
    cols.candidateCol) cols.dateCol) cols.amountCol

/-- Model of toUpperCase (per-character). -/
def jsToUpper (s : String) : String := String.mk (s.data.map Char.toUpper)

/-- The join of the source on the missing-field names. -/
def joinWith (sep : String) : List String → String
  | [] => ""
  | [x] => x
  | x :: y :: xs => x ++ sep ++ joinWith sep (y :: xs)

/-- The name resolution of the row loop: separate first and last columns
when both are present, else the split full-name column, else empty. -/
def nameOf (cols : Cols) (fields : List String) : String × String :=
  if cols.firstNameCol ≠ -1 ∧ cols.lastNameCol ≠ -1 then
    (jsTrim (getField fields cols.firstNameCol), jsTrim (getField fields cols.lastNameCol))
  else if cols.fullNameCol ≠ -1 then
    ((parseFullName (jsTrim (getField fields cols.fullNameCol))).firstName,
     (parseFullName (jsTrim (getField fields cols.fullNameCol))).lastName)
  else ("", "")

/-- The trimmed committee cell. -/
def candNameOf (cols : Cols) (fields : List String) : String :=
  jsTrim (getField fields cols.candidateCol)

/-- The trimmed raw date cell. -/
def rawDateOf (cols : Cols) (fields : List String) : String :=
  jsTrim (getField fields cols.dateCol)

/-- The stripped raw amount cell. -/
def rawAmountOf (cols : Cols) (fields : List String) : String :=
  String.mk (stripAmountChars (getField fields cols.amountCol).data)

/-- The missing required values of a row, in the order of the source. -/
def missingOf (cols : Cols) (fields : List String) : List String :=
  (if candNameOf cols fields = "" then ["committee name"] else []) ++
  (if rawDateOf cols fields = "" then ["date"] else []) ++
  (if rawAmountOf cols fields = "" then ["amount"] else [])

/-- An optional trimmed cell (empty when the column is absent). -/
def optField (fields : List String) (col : Int) : String :=
  if col ≠ -1 then jsTrim (getField fields col) else ""

/-- The outcome of one data row: skipped as blank, one collected row
error, or one record. -/
inductive RowOutcome where
  | blank
  | rowError (msg : String)
  | record (r : Rec)
deriving DecidableEq, Repr
/-- The date-then-amount tail of the row loop: parse the date (a null
date is the invalid-date error), then the amount (NaN is the
invalid-amount error), else build the record. -/
def dateAmountOutcome (fb : String → Option (Int × Int × Int)) (cols : Cols) (rowNum : Nat)
    (fields : List String) : RowOutcome :=
  match parseFecDate fb (rawDateOf cols fields) with
  | none =>
      .rowError ("Row " ++ Nat.repr rowNum ++ ": Invalid date format " ++
        rawDateOf cols fields)
  | some (ymd, epoch) =>
    match jsParseFloat (rawAmountOf cols fields).data with
    | none =>
        .rowError ("Row " ++ Nat.repr rowNum ++ ": Invalid amount " ++
          rawAmountOf cols fields)
    | some amt =>
        .record
          { firstName := (nameOf cols fields).1
            lastName := (nameOf cols fields).2
            candidateName := candNameOf cols fields
            contributionDate := ymd
            contributionEpoch := epoch
            amount := round2 amt
            isRefund := decide (amt < 0)
            entityType := jsToUpper (optField fields cols.entityTypeCol)
            transactionId := optField fields cols.transactionIdCol
            employer := optField fields cols.employerCol
            occupation := optField fields cols.occupationCol
            city := optField fields cols.cityCol
            state := jsToUpper (optField fields cols.stateCol) }

/-- Embedding of the body of the forEach of the row loop of
ImportExport.smartImport: the early returns of the source are the
branches here, in source order. -/
def rowOutcome (fb : String → Option (Int × Int × Int)) (cols : Cols) (rowNum : Nat)
    (fields : List String) : RowOutcome :=
  if fields.all (fun f => trimL f.data = []) then .blank
  else if (fields.length : Int) ≤ maxColIdx cols then
    .rowError ("Row " ++ Nat.repr rowNum ++ ": Has " ++ Nat.repr fields.length ++
      " columns, need at least " ++ Int.repr (maxColIdx cols + 1))
  else if missingOf cols fields ≠ [] then
    .rowError ("Row " ++ Nat.repr rowNum ++ ": Missing " ++
      joinWith ", " (missingOf cols fields))
  else dateAmountOutcome fb cols rowNum fields

/-- The full row loop: records and error messages, both in source order
(rowNum of the row at index idx is idx + 2, counting the header). -/
def extractRecords (fb : String → Option (Int × Int × Int)) (cols : Cols) :
    List (List String) → Nat → List Rec × List String
  | [], _ => ([], [])
  | fields :: rest, idx =>
      match rowOutcome fb cols (idx + 2) fields,
        extractRecords fb cols rest (idx + 1) with
      | .blank, (rs, es) => (rs, es)
      | .rowError m, (rs, es) => (rs, m :: es)
      | .record r, (rs, es) => (r :: rs, es)

theorem dateAmountOutcome_cases (fb : String → Option (Int × Int × Int)) (cols : Cols)
    (rowNum : Nat) (fields : List String) :
    (∃ m, dateAmountOutcome fb cols rowNum fields = .rowError m) ∨
    (∃ ymd epoch amt, parseFecDate fb (rawDateOf cols fields) = some (ymd, epoch) ∧
      jsParseFloat (rawAmountOf cols fields).data = some amt ∧
      dateAmountOutcome fb cols rowNum fields = .record
        { firstName := (nameOf cols fields).1
          lastName := (nameOf cols fields).2
          candidateName := candNameOf cols fields
          contributionDate := ymd
          contributionEpoch := epoch
          amount := round2 amt
          isRefund := decide (amt < 0)
          entityType := jsToUpper (optField fields cols.entityTypeCol)
          transactionId := optField fields cols.transactionIdCol
          employer := optField fields cols.employerCol
          occupation := optField fields cols.occupationCol
          city := optField fields cols.cityCol
          state := jsToUpper (optField fields cols.stateCol) }) := by
  unfold dateAmountOutcome
  cases hp : parseFecDate fb (rawDateOf cols fields) with
  | none => exact Or.inl ⟨_, rfl⟩
  | some pr =>
    obtain ⟨ymd, epoch⟩ := pr
    cases ha : jsParseFloat (rawAmountOf cols fields).data with
    | none => exact Or.inl ⟨_, rfl⟩
    | some amt => exact Or.inr ⟨ymd, epoch, amt, rfl, rfl, rfl⟩

theorem dateAmountOutcome_ne_blank (fb : String → Option (Int × Int × Int)) (cols : Cols)
    (rowNum : Nat) (fields : List String) :
    dateAmountOutcome fb cols rowNum fields ≠ .blank := by
  rcases dateAmountOutcome_cases fb cols rowNum fields with ⟨m, hm⟩ | ⟨y, e, a, _, _, hr⟩
  · rw [hm]; intro h; cases h
  · rw [hr]; intro h; cases h

theorem rowOutcome_blank_iff (fb : String → Option (Int × Int × Int)) (cols : Cols)
    (rowNum : Nat) (fields : List String) :
    rowOutcome fb cols rowNum fields = .blank ↔
      fields.all (fun f => trimL f.data = []) = true := by
  constructor
  · intro h
    by_contra hb
    unfold rowOutcome at h
    rw [if_neg hb] at h
    by_cases h2 : (fields.length : Int) ≤ maxColIdx cols
    · rw [if_pos h2] at h; cases h
    · rw [if_neg h2] at h
      by_cases h3 : missingOf cols fields ≠ []
      · rw [if_pos h3] at h; cases h
      · rw [if_neg h3] at h
        exact dateAmountOutcome_ne_blank fb cols rowNum fields h
  · intro h
    unfold rowOutcome
    rw [if_pos h]

theorem joinWith_ends_with (sep x : String) (l : List String) :
    ∃ pre : String, joinWith sep (l ++ [x]) = pre ++ x := by
  induction l with
  | nil => exact ⟨"", by simp [joinWith]⟩
  | cons a as ih =>
    obtain ⟨pre, hpre⟩ := ih
    cases as with
    | nil => exact ⟨a ++ sep, by simp [joinWith, String.append_assoc]⟩
    | cons b bs =>
      refine ⟨a ++ sep ++ pre, ?_⟩
      show joinWith sep (a :: ((b :: bs) ++ [x])) = a ++ sep ++ pre ++ x
      have hstep : joinWith sep (a :: ((b :: bs) ++ [x])) =
          a ++ sep ++ joinWith sep ((b :: bs) ++ [x]) := rfl
      rw [hstep, hpre]
      simp [String.append_assoc]

theorem isWsChar_not_amount_char (c : Char) (h : isWsChar c = true) :
    (isDigitB c || c = '.' || c = '-') = false := by
  simp only [isWsChar, Bool.or_eq_true, decide_eq_true_eq] at h
  rcases h with ((((((h | h) | h) | h) | h) | h) | h) | h <;> subst h <;> decide

theorem trimL_nil_all_ws (l : List Char) (h : trimL l = []) :
    ∀ c ∈ l, isWsChar c = true := by
  unfold trimL trimLeftL at h
  have h1 : (l.dropWhile isWsChar).reverse.dropWhile isWsChar = [] := by
    rwa [List.reverse_eq_nil_iff] at h
  have h2 : ∀ c ∈ (l.dropWhile isWsChar).reverse, isWsChar c = true := by
    rw [List.dropWhile_eq_nil_iff] at h1
    exact h1
  have h3 : ∀ c ∈ l.dropWhile isWsChar, isWsChar c = true := by
    intro c hc
    exact h2 c (List.mem_reverse.2 hc)
  intro c hc
  rw [← List.takeWhile_append_dropWhile (p := isWsChar) (l := l)] at hc
  rcases List.mem_append.1 hc with hc | hc
  · exact List.mem_takeWhile_imp hc
  · exact h3 c hc

theorem extractRecords_cons (fb : String → Option (Int × Int × Int)) (cols : Cols)
    (fields : List String) (rest : List (List String)) (idx : Nat) :
    extractRecords fb cols (fields :: rest) idx =
      match rowOutcome fb cols (idx + 2) fields, extractRecords fb cols rest (idx + 1) with
      | .blank, (rs, es) => (rs, es)
      | .rowError m, (rs, es) => (rs, m :: es)
      | .record r, (rs, es) => (r :: rs, es) := rfl

theorem stripAmount_of_trim_nil (l : List Char) (h : trimL l = []) :
    stripAmountChars l = [] := by
  unfold stripAmountChars
  rw [List.filter_eq_nil_iff]
  intro c hc
  rw [isWsChar_not_amount_char c (trimL_nil_all_ws l h c hc)]
  simp

/-- Claim C2: extraction processes every data row exactly once and never
short-circuits.  Each non-blank row yields exactly one outcome (an error
message or a record), collected rather than thrown; a row with enough
columns whose amount cell is blank after trimming yields exactly one row
error whose message mentions amount, and no record; and the number of
records plus row errors equals the number of data rows minus the number
of fully blank rows. -/
theorem C2_record_extraction :
    (∀ fb cols rowNum fields,
      rowOutcome fb cols rowNum fields = .blank ∨
      (∃ m, rowOutcome fb cols rowNum fields = .rowError m) ∨
      (∃ r, rowOutcome fb cols rowNum fields = .record r)) ∧
    (∀ fb cols rowNum fields,
      ¬ fields.all (fun f => trimL f.data = []) = true →
      maxColIdx cols < (fields.length : Int) →
      trimL (getField fields cols.amountCol).data = [] →
      ∃ m, rowOutcome fb cols rowNum fields = .rowError m ∧
        strContains m "amount" = true) ∧
    (∀ fb cols rows idx,
      (extractRecords fb cols rows idx).1.length +
          (extractRecords fb cols rows idx).2.length =
        rows.length - (rows.filter (fun fields =>
          fields.all (fun f => trimL f.data = []))).length) := by
  refine ⟨?_, ?_, ?_⟩
  · intro fb cols rowNum fields
    cases h : rowOutcome fb cols rowNum fields with
    | blank => exact Or.inl rfl
    | rowError m => exact Or.inr (Or.inl ⟨m, rfl⟩)
    | record r => exact Or.inr (Or.inr ⟨r, rfl⟩)
  · intro fb cols rowNum fields hnb hlen hblank
    have hstrip : rawAmountOf cols fields = "" := by
      unfold rawAmountOf
      rw [stripAmount_of_trim_nil _ hblank]
    have hmiss : missingOf cols fields =
        ((if candNameOf cols fields = "" then ["committee name"] else []) ++
          (if rawDateOf cols fields = "" then ["date"] else [])) ++ ["amount"] := by
      unfold missingOf
      rw [hstrip]
      simp
    have hne : missingOf cols fields ≠ [] := by
      rw [hmiss]
      simp
    obtain ⟨pre, hpre⟩ := joinWith_ends_with ", " "amount"
      ((if candNameOf cols fields = "" then ["committee name"] else []) ++
        (if rawDateOf cols fields = "" then ["date"] else []))
    refine ⟨"Row " ++ Nat.repr rowNum ++ ": Missing " ++
      joinWith ", " (missingOf cols fields), ?_, ?_⟩
    · unfold rowOutcome
      rw [if_neg hnb, if_neg (by omega), if_pos hne]
    · rw [hmiss, hpre]
      show strContainsL (("Row " ++ Nat.repr rowNum ++ ": Missing " ++
        (pre ++ "amount")).data) ("amount" : String).data = true
      have hdata : ("Row " ++ Nat.repr rowNum ++ ": Missing " ++ (pre ++ "amount")).data =
          (("Row " ++ Nat.repr rowNum ++ ": Missing ").data ++ pre.data) ++
            ("amount" : String).data ++ [] := by
        simp [String.data_append]
      rw [hdata]
      exact strContainsL_of_append _ _ _
  · intro fb cols rows idx
    induction rows generalizing idx with
    | nil => simp [extractRecords]
    | cons fields rest ih =>
      have hfl : (rest.filter (fun fields =>
          fields.all (fun f => trimL f.data = []))).length ≤ rest.length :=
        List.length_filter_le _ _
      by_cases hb : fields.all (fun f => trimL f.data = []) = true
      · have ho : rowOutcome fb cols (idx + 2) fields = .blank :=
          (rowOutcome_blank_iff fb cols (idx + 2) fields).2 hb
        have hstep : extractRecords fb cols (fields :: rest) idx =
            extractRecords fb cols rest (idx + 1) := by
          rcases hval : extractRecords fb cols rest (idx + 1) with ⟨rs, es⟩
          rw [extractRecords_cons, ho, hval]
        rw [hstep, List.filter_cons_of_pos (by simpa using hb)]
        have := ih (idx + 1)
        simp only [List.length_cons]
        omega
      · have hne : rowOutcome fb cols (idx + 2) fields ≠ .blank := by
          intro h
          exact hb ((rowOutcome_blank_iff fb cols (idx + 2) fields).1 h)
        rw [List.filter_cons_of_neg (by simpa using hb)]
        have := ih (idx + 1)
        cases ho : rowOutcome fb cols (idx + 2) fields with
        | blank => exact absurd ho hne
        | rowError m =>
          have hstep : extractRecords fb cols (fields :: rest) idx =
              ((extractRecords fb cols rest (idx + 1)).1,
               m :: (extractRecords fb cols rest (idx + 1)).2) := by
            rcases hval : extractRecords fb cols rest (idx + 1) with ⟨rs, es⟩
            rw [extractRecords_cons, ho, hval]
          rw [hstep]
          simp only [List.length_cons]
          omega
        | record r =>
          have hstep : extractRecords fb cols (fields :: rest) idx =
              (r :: (extractRecords fb cols rest (idx + 1)).1,
               (extractRecords fb cols rest (idx + 1)).2) := by
            rcases hval : extractRecords fb cols rest (idx + 1) with ⟨rs, es⟩
            rw [extractRecords_cons, ho, hval]
          rw [hstep]
          simp only [List.length_cons]
          omega

/-- Claim C2 witness: the parts of the theorem applied at a concrete
mapping and rows (one good row, one blank-amount row, one all-blank
row). -/
theorem C2_record_extraction_witness :
    (∃ m, rowOutcome (fun _ => none)
        ⟨0, 1, -1, 2, 3, 4, -1, -1, -1, -1, -1, -1⟩ 2
        ["John", "Doe", "Com", "1/5/2024", " "] = .rowError m ∧
      strContains m "amount" = true) ∧
    (extractRecords (fun _ => none) ⟨0, 1, -1, 2, 3, 4, -1, -1, -1, -1, -1, -1⟩
        [["John", "Doe", "Com", "1/5/2024", "25"], ["", "", "", "", ""],
          ["John", "Doe", "Com", "1/5/2024", " "]] 0).1.length +
      (extractRecords (fun _ => none) ⟨0, 1, -1, 2, 3, 4, -1, -1, -1, -1, -1, -1⟩
        [["John", "Doe", "Com", "1/5/2024", "25"], ["", "", "", "", ""],
          ["John", "Doe", "Com", "1/5/2024", " "]] 0).2.length = 3 - 1 := by
  constructor
  · exact C2_record_extraction.2.1 (fun _ => none)
      ⟨0, 1, -1, 2, 3, 4, -1, -1, -1, -1, -1, -1⟩ 2
      ["John", "Doe", "Com", "1/5/2024", " "] (by decide) (by decide) (by decide)
  · have h := C2_record_extraction.2.2 (fun _ => none)
      ⟨0, 1, -1, 2, 3, 4, -1, -1, -1, -1, -1, -1⟩
      [["John", "Doe", "Com", "1/5/2024", "25"], ["", "", "", "", ""],
        ["John", "Doe", "Com", "1/5/2024", " "]] 0
    rw [h]
    decide

/-! ## Claim C9: the refund flag versus the stored amount -/

/-- The column mapping of the counterexample row. -/
def colsC9 : Cols := ⟨0, 1, -1, 2, 3, 4, -1, -1, -1, -1, -1, -1⟩

/-- The record produced from an amount cell of -0.004: the stored amount
rounds to zero while the refund flag was computed from the unrounded
parsed amount. -/
def recC9 : Rec :=
  { firstName := "John", lastName := "Doe", candidateName := "Com",
    contributionDate := "2024-01-05", contributionEpoch := 1704412800000,
    amount := 0, isRefund := true, entityType := "", transactionId := "",
    employer := "", occupation := "", city := "", state := "" }

/-- Embedding of the amount handling of UI.addDonorFromModal: the stored
rounded amount and the refund flag computed from the unrounded parsed
input. -/
def addDonorAmountPair (amount : ℚ) : ℚ × Bool := (round2 amount, decide (amount < 0))

theorem round2_neg_iff (q : ℚ) : round2 q < 0 ↔ q < -(1 / 200) := by
  unfold round2
  rw [jsRound_eq_floor]
  constructor
  · intro h
    have h100 : (0 : ℚ) < 100 := by norm_num
    have h1 : ((⌊q * 100 + 1 / 2⌋ : ℚ)) < 0 := by
      by_contra hge
      push_neg at hge
      have : (0 : ℚ) ≤ (⌊q * 100 + 1 / 2⌋ : ℚ) / 100 := div_nonneg hge (le_of_lt h100)
      linarith
    have hf : ⌊q * 100 + 1 / 2⌋ < 0 := by exact_mod_cast h1
    rw [Int.floor_lt] at hf
    push_cast at hf
    linarith
  · intro h
    have hf : ⌊q * 100 + 1 / 2⌋ < 0 := by
      rw [Int.floor_lt]
      push_cast
      linarith
    have h1 : ((⌊q * 100 + 1 / 2⌋ : ℚ)) < 0 := by exact_mod_cast hf
    have h100 : (0 : ℚ) < 100 := by norm_num
    exact div_neg_of_neg_of_pos h1 h100

theorem round2_zero_of_small (q : ℚ) (h1 : -(1 / 200) ≤ q) (h2 : q < 1 / 200) :
    round2 q = 0 := by
  unfold round2
  rw [jsRound_eq_floor]
  have hf : ⌊q * 100 + 1 / 2⌋ = 0 := by
    rw [Int.floor_eq_zero_iff]
    constructor
    · show (0 : ℚ) ≤ q * 100 + 1 / 2
      linarith
    · show q * 100 + 1 / 2 < 1
      linarith
  rw [hf]
  norm_num

/-- The counterexample row: a contribution of minus four tenths of a
cent. -/
def rowC9 : List String := ["John", "Doe", "Com", "1/5/2024", "-0.004"]

theorem round2_small_neg : round2 (-(1 / 250) : ℚ) = 0 :=
  round2_zero_of_small _ (by norm_num) (by norm_num)

/-- Claim C9, counterexample: a CSV row whose amount cell is -0.004
produces a record with isRefund true but stored amount zero, so the
denormalized flag and the stored rounded amount diverge at creation. -/
theorem C9_counterexample :
    rowOutcome (fun _ => none) colsC9 2 rowC9 = .record recC9 ∧
    recC9.isRefund = true ∧ ¬ recC9.amount < 0 ∧
    recC9.isRefund ≠ decide (recC9.amount < 0) := by
  have hd4 : digitsToNat ['0', '0', '4'] = 4 := by decide
  have hd0 : digitsToNat ['0'] = 0 := by decide
  have hamt : jsParseFloat (rawAmountOf colsC9 rowC9).data = some (-(1 / 250) : ℚ) := by
    show some (-((digitsToNat ['0'] : ℚ) + fracValue ['0', '0', '4'])) =
      some (-(1 / 250) : ℚ)
    rw [hd0]
    unfold fracValue
    rw [hd4]
    norm_num
  have hdate : parseFecDate (fun _ => (none : Option (Int × Int × Int)))
      (rawDateOf colsC9 rowC9) = some ("2024-01-05", 1704412800000) := by rfl
  have h2 : decide ((-(1 / 250) : ℚ) < 0) = true := by norm_num
  have hro : rowOutcome (fun _ => none) colsC9 2 rowC9 = .record recC9 := by
    unfold rowOutcome
    rw [if_neg (by decide), if_neg (by decide), if_neg (by decide)]
    unfold dateAmountOutcome
    rw [hdate, hamt]
    show RowOutcome.record
      { firstName := (nameOf colsC9 rowC9).1
        lastName := (nameOf colsC9 rowC9).2
        candidateName := candNameOf colsC9 rowC9
        contributionDate := "2024-01-05"
        contributionEpoch := 1704412800000
        amount := round2 (-(1 / 250) : ℚ)
        isRefund := decide ((-(1 / 250) : ℚ) < 0)
        entityType := jsToUpper (optField rowC9 colsC9.entityTypeCol)
        transactionId := optField rowC9 colsC9.transactionIdCol
        employer := optField rowC9 colsC9.employerCol
        occupation := optField rowC9 colsC9.occupationCol
        city := optField rowC9 colsC9.cityCol
        state := jsToUpper (optField rowC9 colsC9.stateCol) } = RowOutcome.record recC9
    rw [round2_small_neg, h2]
    rfl
  refine ⟨hro, rfl, by norm_num [recC9], by norm_num [recC9]⟩

/-- Claim C9 (amended): at creation time, both in the CSV import row loop
and in the manual entry modal, isRefund equals (pre-rounding parsed
amount < 0), while the stored amount is the rounded value; the flag
agrees with (stored amount < 0) except when the parsed amount lies in
[-0.005, 0), where isRefund is true but the stored amount is zero. -/
theorem C9_amended :
    (∀ fb cols rowNum fields r,
      rowOutcome fb cols rowNum fields = .record r →
      ∃ amt : ℚ, jsParseFloat (rawAmountOf cols fields).data = some amt ∧
        r.amount = round2 amt ∧ r.isRefund = decide (amt < 0)) ∧
    (∀ q : ℚ, addDonorAmountPair q = (round2 q, decide (q < 0))) ∧
    (∀ q : ℚ, round2 q < 0 ↔ q < -(1 / 200)) ∧
    (∀ q : ℚ, q < -(1 / 200) ∨ 0 ≤ q →
      (decide (q < 0) = true ↔ round2 q < 0)) ∧
    (∀ q : ℚ, -(1 / 200) ≤ q → q < 0 →
      decide (q < 0) = true ∧ round2 q = 0) := by
  refine ⟨?_, fun q => rfl, round2_neg_iff, ?_, ?_⟩
  · intro fb cols rowNum fields r h
    unfold rowOutcome at h
    by_cases h1 : fields.all (fun f => trimL f.data = []) = true
    · rw [if_pos h1] at h; cases h
    · rw [if_neg h1] at h
      by_cases h2 : (fields.length : Int) ≤ maxColIdx cols
      · rw [if_pos h2] at h; cases h
      · rw [if_neg h2] at h
        by_cases h3 : missingOf cols fields ≠ []
        · rw [if_pos h3] at h; cases h
        · rw [if_neg h3] at h
          rcases dateAmountOutcome_cases fb cols rowNum fields with
            ⟨m, hm⟩ | ⟨ymd, epoch, amt, hp, ha, hr⟩
          · rw [hm] at h; cases h
          · rw [hr] at h
            refine ⟨amt, ha, ?_, ?_⟩
            · cases h; rfl
            · cases h; rfl
  · intro q hq
    rcases hq with hq | hq
    · constructor
      · intro _
        exact (round2_neg_iff q).2 hq
      · intro _
        simp only [decide_eq_true_eq]
        linarith [hq]
    · have hnr : ¬ round2 q < 0 := by
        rw [round2_neg_iff]
        linarith
      constructor
      · intro hd
        simp only [decide_eq_true_eq] at hd
        linarith
      · intro hr
        exact absurd hr hnr
  · intro q h1 h2
    exact ⟨by simpa using h2, round2_zero_of_small q h1 (by linarith)⟩
/-- Claim C9 witness: the amended statement applied at the concrete
counterexample amount and at a normal amount. -/
theorem C9_amended_witness :
    (decide ((-(1 / 250) : ℚ) < 0) = true ∧ round2 (-(1 / 250) : ℚ) = 0) ∧
    (decide ((-(3 : ℚ)) < 0) = true ↔ round2 (-(3 : ℚ)) < 0) := by
  constructor
  · exact C9_amended.2.2.2.2 (-(1 / 250)) (by norm_num) (by norm_num)
  · exact C9_amended.2.2.2.1 (-(3 : ℚ)) (Or.inl (by norm_num))

/-! ## EarmarkMerger: the smart-merge branch of ImportExport.smartImport -/

/-- Strip one trailing earmark letter E (case-insensitive) from a
transaction id (the anchored replace of the source). -/
def stripEarmark (s : String) : String :=
  match s.data.getLast? with
  | some c => if c = 'E' ∨ c = 'e' then String.mk s.data.dropLast else s
  | none => s

/-- The grouping key of a record. -/
def groupKey (r : Rec) : String := stripEarmark r.transactionId

/-- The record shape of the smart-merge output: the merged object literal
of the source carries no entity type and no transaction id (none here),
while a passed-through single record keeps its fields (some here). -/
structure MRec where
  firstName : String
  lastName : String
  candidateName : String
  contributionDate : String
  contributionEpoch : Int
  amount : ℚ
  isRefund : Bool
  employer : String
  occupation : String
  city : String
  state : String
  entityType? : Option String
  transactionId? : Option String
deriving DecidableEq, Repr

/-- A record passed through unchanged. -/
def toMRec (r : Rec) : MRec :=
  { firstName := r.firstName, lastName := r.lastName, candidateName := r.candidateName,
    contributionDate := r.contributionDate, contributionEpoch := r.contributionEpoch,
    amount := r.amount, isRefund := r.isRefund, employer := r.employer,
    occupation := r.occupation, city := r.city, state := r.state,
    entityType? := some r.entityType, transactionId? := some r.transactionId }

/-- The individual entity test of the source. -/
def isIND (r : Rec) : Bool := r.entityType = "IND"

/-- The conduit entity test of the source (political action committee or
party code). -/
def isConduit (r : Rec) : Bool := r.entityType = "PAC" || r.entityType = "PTY"

/-- The merged record of the source: donor identity, committee, amount,
refund flag and personal metadata from the individual record, date and
epoch from the conduit record when one exists. -/
def mergedOf (ind : Rec) (conduit : Option Rec) : MRec :=
  { firstName := ind.firstName, lastName := ind.lastName,
    candidateName := ind.candidateName,
    contributionDate :=
      match conduit with
      | some c => c.contributionDate
      | none => ind.contributionDate,
    contributionEpoch :=
      match conduit with
      | some c => c.contributionEpoch
      | none => ind.contributionEpoch,
    amount := ind.amount, isRefund := ind.isRefund, employer := ind.employer,
    occupation := ind.occupation, city := ind.city, state := ind.state,
    entityType? := none, transactionId? := none }

/-- The per-group emission of the source: a merged record when an
individual record exists, the single member unchanged when the group is a
singleton, nothing otherwise. -/
def mergeGroup (g : List Rec) : Option MRec :=
  match g.find? isIND with
  | some ind => some (mergedOf ind (g.find? isConduit))
  | none =>
    match g with
    | [r] => some (toMRec r)
    | _ => none

/-- One step of the grouping of the source: a record with an empty base
id gets a fresh synthetic group (the unique Symbol key is modelled by a
none key, never looked up); otherwise the record joins the group of its
base id, created at the end on first encounter. -/
def addToGroups (gs : List (Option String × List Rec)) (r : Rec) :
    List (Option String × List Rec) :=
  if groupKey r = "" then gs ++ [(none, [r])]
  else if gs.any (fun g => g.1 = some (groupKey r)) then
    gs.map (fun g => if g.1 = some (groupKey r) then (g.1, g.2 ++ [r]) else g)
  else gs ++ [(some (groupKey r), [r])]

/-- The transaction groups of the record list, in first-encounter order
(the JavaScript Map preserves insertion order). -/
def transactionGroups (rs : List Rec) : List (Option String × List Rec) :=
  rs.foldl addToGroups []

/-- Embedding of the smart-merge branch of ImportExport.smartImport. -/
def smartMerge (rs : List Rec) : List MRec :=
  ((transactionGroups rs).map Prod.snd).filterMap mergeGroup

/-- The invariant tying the accumulated groups to the records seen so
far: a non-empty key has a group exactly when a seen record carries it,
and that group lists exactly the seen records with that key, in order. -/
def groupsInv (gs : List (Option String × List Rec)) (seen : List Rec) : Prop :=
  ∀ k : String, k ≠ "" →
    ((∃ g, (some k, g) ∈ gs) ↔ ∃ r ∈ seen, groupKey r = k) ∧
    (∀ g, (some k, g) ∈ gs → g = seen.filter (fun r => groupKey r = k))

theorem filter_append_single (seen : List Rec) (r : Rec) (p : Rec → Bool) :
    (seen ++ [r]).filter p = seen.filter p ++ (if p r then [r] else []) := by
  rw [List.filter_append]
  by_cases h : p r <;> simp [List.filter, h]

theorem addToGroups_inv (gs : List (Option String × List Rec)) (seen : List Rec) (r : Rec)
    (h : groupsInv gs seen) : groupsInv (addToGroups gs r) (seen ++ [r]) := by
  intro k hk
  obtain ⟨hex, hfil⟩ := h k hk
  unfold addToGroups
  by_cases hk0 : groupKey r = ""
  · rw [if_pos hk0]
    constructor
    · constructor
      · rintro ⟨g, hg⟩
        rcases List.mem_append.1 hg with hg | hg
        · obtain ⟨r2, hr2, hkr2⟩ := hex.1 ⟨g, hg⟩
          exact ⟨r2, List.mem_append_left _ hr2, hkr2⟩
        · simp at hg
      · rintro ⟨r2, hr2, hkr2⟩
        rcases List.mem_append.1 hr2 with hr2 | hr2
        · obtain ⟨g, hg⟩ := hex.2 ⟨r2, hr2, hkr2⟩
          exact ⟨g, List.mem_append_left _ hg⟩
        · have hr2e : r2 = r := by simpa using hr2
          rw [hr2e, hk0] at hkr2
          exact absurd hkr2.symm hk
    · intro g hg
      rcases List.mem_append.1 hg with hg | hg
      · rw [hfil g hg, filter_append_single]
        have hd : decide (groupKey r = k) = false := by
          simp only [decide_eq_false_iff_not, hk0]
          intro hkk
          exact hk hkk.symm
        rw [hd]
        simp
      · simp at hg
  · rw [if_neg hk0]
    by_cases hhas : gs.any (fun g => g.1 = some (groupKey r)) = true
    · rw [if_pos hhas]
      constructor
      · constructor
        · rintro ⟨g, hg⟩
          obtain ⟨a, ha, hfa⟩ := List.mem_map.1 hg
          by_cases hak : a.1 = some (groupKey r)
          · rw [if_pos hak] at hfa
            have hk1 : a.1 = some k := by
              have := congrArg Prod.fst hfa
              simpa using this
            have hkk : groupKey r = k := by
              rw [hak] at hk1
              simpa using hk1
            exact ⟨r, List.mem_append_right _ (by simp), hkk⟩
          · rw [if_neg hak] at hfa
            rw [hfa] at ha
            obtain ⟨r2, hr2, hkr2⟩ := hex.1 ⟨g, ha⟩
            exact ⟨r2, List.mem_append_left _ hr2, hkr2⟩
        · rintro ⟨r2, hr2, hkr2⟩
          rcases List.mem_append.1 hr2 with hr2 | hr2
          · obtain ⟨g, hg⟩ := hex.2 ⟨r2, hr2, hkr2⟩
            by_cases hgk : (some k : Option String) = some (groupKey r)
            · refine ⟨g ++ [r], ?_⟩
              have := List.mem_map_of_mem
                (fun g => if g.1 = some (groupKey r) then (g.1, g.2 ++ [r]) else g) hg
              simpa [hgk] using this
            · refine ⟨g, ?_⟩
              have := List.mem_map_of_mem
                (fun g => if g.1 = some (groupKey r) then (g.1, g.2 ++ [r]) else g) hg
              simpa [hgk] using this
          · have hr2e : r2 = r := by simpa using hr2
            rw [hr2e] at hkr2
            obtain ⟨a, ha, hak⟩ := List.any_eq_true.1 hhas
            refine ⟨a.2 ++ [r], ?_⟩
            have := List.mem_map_of_mem
              (fun g => if g.1 = some (groupKey r) then (g.1, g.2 ++ [r]) else g) ha
            have hak2 : a.1 = some (groupKey r) := by simpa using hak
            have hfa : (if a.1 = some (groupKey r) then (a.1, a.2 ++ [r]) else a) =
                (some k, a.2 ++ [r]) := by
              rw [if_pos hak2, hak2, hkr2]
            have this2 : (if a.1 = some (groupKey r) then (a.1, a.2 ++ [r]) else a) ∈
                List.map (fun g => if g.1 = some (groupKey r) then (g.1, g.2 ++ [r]) else g)
                  gs := this
            rw [hfa] at this2
            exact this2
      · intro g hg
        obtain ⟨a, ha, hfa⟩ := List.mem_map.1 hg
        by_cases hak : a.1 = some (groupKey r)
        · rw [if_pos hak] at hfa
          have hk1 : a.1 = some k := by
            have := congrArg Prod.fst hfa
            simpa using this
          have hg2 : g = a.2 ++ [r] := by
            have := congrArg Prod.snd hfa
            simpa using this.symm
          have hkk : groupKey r = k := by
            rw [hak] at hk1
            simpa using hk1
          have hmem : (some k, a.2) ∈ gs := by
            rw [← hk1]
            exact ha
          rw [hg2, hfil a.2 hmem, filter_append_single]
          have hpr : decide (groupKey r = k) = true := by simp [hkk]
          rw [hpr]
          simp
        · rw [if_neg hak] at hfa
          rw [hfa] at ha
          have hkne : groupKey r ≠ k := by
            intro hkk
            apply hak
            rw [hfa, hkk]
          rw [hfil g ha, filter_append_single]
          have hpr : decide (groupKey r = k) = false := by simp [hkne]
          rw [hpr]
          simp
    · rw [if_neg hhas]
      have hnone : ¬ ∃ g, (some (groupKey r), g) ∈ gs := by
        rintro ⟨g, hg⟩
        apply hhas
        exact List.any_eq_true.2 ⟨(some (groupKey r), g), hg, by simp⟩
      constructor
      · constructor
        · rintro ⟨g, hg⟩
          rcases List.mem_append.1 hg with hg | hg
          · obtain ⟨r2, hr2, hkr2⟩ := hex.1 ⟨g, hg⟩
            exact ⟨r2, List.mem_append_left _ hr2, hkr2⟩
          · have : k = groupKey r := by
              have := List.mem_singleton.1 hg
              have h1 := congrArg Prod.fst this
              simpa using h1
            exact ⟨r, List.mem_append_right _ (by simp), this.symm⟩
        · rintro ⟨r2, hr2, hkr2⟩
          rcases List.mem_append.1 hr2 with hr2 | hr2
          · obtain ⟨g, hg⟩ := hex.2 ⟨r2, hr2, hkr2⟩
            exact ⟨g, List.mem_append_left _ hg⟩
          · have hr2e : r2 = r := by simpa using hr2
            rw [hr2e] at hkr2
            exact ⟨[r], List.mem_append_right _ (by simp [hkr2])⟩
      · intro g hg
        rcases List.mem_append.1 hg with hg | hg
        · have hkne : groupKey r ≠ k := by
            intro hkk
            exact hnone ⟨g, by rw [hkk]; exact hg⟩
          rw [hfil g hg, filter_append_single]
          have hpr : decide (groupKey r = k) = false := by simp [hkne]
          rw [hpr]
          simp
        · have hpair := List.mem_singleton.1 hg
          have hk1 : groupKey r = k := by
            have h1 := congrArg Prod.fst hpair
            simp at h1
            exact h1.symm
          have hg1 : g = [r] := by
            have h1 := congrArg Prod.snd hpair
            simpa using h1
          have hseen : seen.filter (fun r2 => groupKey r2 = k) = [] := by
            rw [List.filter_eq_nil_iff]
            intro r2 hr2
            simp only [decide_eq_true_eq]
            intro hkr2
            refine hnone ?_
            rw [hk1]
            exact hex.2 ⟨r2, hr2, hkr2⟩
          rw [hg1, filter_append_single, hseen]
          have hpr : decide (groupKey r = k) = true := by simp [hk1]
          rw [hpr]
          simp

theorem foldl_addToGroups_inv (rs : List Rec) : ∀ gs seen, groupsInv gs seen →
    groupsInv (rs.foldl addToGroups gs) (seen ++ rs) := by
  induction rs with
  | nil => intro gs seen h; simpa using h
  | cons r rest ih =>
    intro gs seen h
    have h2 := ih (addToGroups gs r) (seen ++ [r]) (addToGroups_inv gs seen r h)
    simpa using h2

theorem transactionGroups_inv (rs : List Rec) : groupsInv (transactionGroups rs) rs := by
  have h0 : groupsInv [] [] := by
    intro k hk
    constructor
    · simp
    · intro g hg; simp at hg
  have := foldl_addToGroups_inv rs [] [] h0
  simpa [transactionGroups] using this

theorem none_mem_addToGroups (gs : List (Option String × List Rec)) (r0 r : Rec)
    (h : (none, [r0]) ∈ gs) : (none, [r0]) ∈ addToGroups gs r := by
  unfold addToGroups
  by_cases h1 : groupKey r = ""
  · rw [if_pos h1]; exact List.mem_append_left _ h
  · rw [if_neg h1]
    by_cases h2 : gs.any (fun g => g.1 = some (groupKey r)) = true
    · rw [if_pos h2]
      have := List.mem_map_of_mem
        (fun g => if g.1 = some (groupKey r) then (g.1, g.2 ++ [r]) else g) h
      simpa using this
    · rw [if_neg h2]; exact List.mem_append_left _ h

theorem none_mem_foldl (rs : List Rec) : ∀ gs (r0 : Rec), (none, [r0]) ∈ gs →
    (none, [r0]) ∈ rs.foldl addToGroups gs := by
  induction rs with
  | nil => intro gs r0 h; simpa using h
  | cons r rest ih =>
    intro gs r0 h
    exact ih (addToGroups gs r) r0 (none_mem_addToGroups gs r0 r h)

theorem singleton_group_mem (rs : List Rec) : ∀ gs (r : Rec), r ∈ rs → groupKey r = "" →
    (none, [r]) ∈ rs.foldl addToGroups gs := by
  induction rs with
  | nil => intro gs r h; simp at h
  | cons x rest ih =>
    intro gs r hr hk
    rcases List.mem_cons.1 hr with hr | hr
    · subst hr
      have hmem : (none, [r]) ∈ addToGroups gs r := by
        unfold addToGroups
        rw [if_pos hk]
        exact List.mem_append_right _ (by simp)
      have h2 := none_mem_foldl rest (addToGroups gs r) r hmem
      simpa using h2
    · exact ih (addToGroups gs x) r hr hk

/-- The concrete individual record of the claim (transaction id X1E). -/
def rINDC1 : Rec :=
  { firstName := "Jane", lastName := "Roe", candidateName := "ComA",
    contributionDate := "2024-01-05", contributionEpoch := 1704412800000,
    amount := 25, isRefund := false, entityType := "IND", transactionId := "X1E",
    employer := "Acme", occupation := "Eng", city := "Town", state := "CA" }

/-- The concrete conduit record of the claim (transaction id X1). -/
def rPACC1 : Rec :=
  { firstName := "Big", lastName := "Pac", candidateName := "ComA",
    contributionDate := "2024-02-01", contributionEpoch := 1706745600000,
    amount := 25, isRefund := false, entityType := "PAC", transactionId := "X1",
    employer := "", occupation := "", city := "", state := "" }

/-- Claim C1: in smart mode, records group by transaction id with one
trailing case-insensitive E stripped; a group with an individual record
emits exactly one merged record with the individual identity, committee,
amount, refund flag and personal metadata but the date and epoch of the
first conduit (PAC or PTY) record when one exists; a group with no
individual record passes through unchanged when it is a singleton and
produces nothing when larger; records with an empty stripped id form
singleton synthetic groups; and the concrete X1E-individual with
X1-conduit pair yields the single expected merged record. -/
theorem C1_smart_merge :
    (∀ rs, smartMerge rs =
      ((rs.foldl addToGroups []).map Prod.snd).filterMap mergeGroup) ∧
    (∀ (g : List Rec) ind, g.find? isIND = some ind →
      ind.entityType = "IND" ∧
      mergeGroup g = some (mergedOf ind (g.find? isConduit)) ∧
      (mergedOf ind (g.find? isConduit)).firstName = ind.firstName ∧
      (mergedOf ind (g.find? isConduit)).lastName = ind.lastName ∧
      (mergedOf ind (g.find? isConduit)).candidateName = ind.candidateName ∧
      (mergedOf ind (g.find? isConduit)).amount = ind.amount ∧
      (mergedOf ind (g.find? isConduit)).isRefund = ind.isRefund ∧
      (mergedOf ind (g.find? isConduit)).employer = ind.employer ∧
      (mergedOf ind (g.find? isConduit)).occupation = ind.occupation ∧
      (mergedOf ind (g.find? isConduit)).city = ind.city ∧
      (mergedOf ind (g.find? isConduit)).state = ind.state ∧
      (∀ c, g.find? isConduit = some c →
        (c.entityType = "PAC" ∨ c.entityType = "PTY") ∧
        (mergedOf ind (some c)).contributionDate = c.contributionDate ∧
        (mergedOf ind (some c)).contributionEpoch = c.contributionEpoch) ∧
      (g.find? isConduit = none →
        (mergedOf ind none).contributionDate = ind.contributionDate ∧
        (mergedOf ind none).contributionEpoch = ind.contributionEpoch)) ∧
    (∀ g : List Rec, (∃ r ∈ g, isIND r = true) →
      ∃ ind, g.find? isIND = some ind ∧ isIND ind = true) ∧
    (∀ (g : List Rec) r, (∀ r2 ∈ g, isIND r2 = false) → g = [r] →
      mergeGroup g = some (toMRec r)) ∧
    (∀ g : List Rec, (∀ r2 ∈ g, isIND r2 = false) → 2 ≤ g.length →
      mergeGroup g = none) ∧
    (∀ rs (r : Rec), r ∈ rs → groupKey r = "" →
      (none, [r]) ∈ transactionGroups rs) ∧
    (∀ rs (k : String) g, k ≠ "" → (some k, g) ∈ transactionGroups rs →
      g = rs.filter (fun r => groupKey r = k)) ∧
    smartMerge [rINDC1, rPACC1] =
      [{ firstName := "Jane", lastName := "Roe", candidateName := "ComA",
         contributionDate := "2024-02-01", contributionEpoch := 1706745600000,
         amount := 25, isRefund := false, employer := "Acme", occupation := "Eng",
         city := "Town", state := "CA", entityType? := none,
         transactionId? := none }] := by
  refine ⟨fun rs => rfl, ?_, ?_, ?_, ?_, ?_, ?_, ?_⟩
  · intro g ind hind
    have hp : isIND ind = true := List.find?_some hind
    have hm : mergeGroup g = some (mergedOf ind (g.find? isConduit)) := by
      unfold mergeGroup
      rw [hind]
    refine ⟨by simpa [isIND] using hp, hm, rfl, rfl, rfl, rfl, rfl, rfl, rfl, rfl, rfl,
      ?_, ?_⟩
    · intro c hc
      have hpc : isConduit c = true := List.find?_some hc
      refine ⟨?_, rfl, rfl⟩
      simpa [isConduit] using hpc
    · intro _
      exact ⟨rfl, rfl⟩
  · intro g hex
    cases hf : g.find? isIND with
    | none =>
      obtain ⟨r, hr, hp⟩ := hex
      have := List.find?_eq_none.1 hf r hr
      rw [hp] at this
      cases this rfl
    | some a => exact ⟨a, rfl, List.find?_some hf⟩
  · intro g r hall hg
    subst hg
    have hf : [r].find? isIND = none :=
      List.find?_eq_none.2 (fun x hx => by
        have := hall x hx
        simp [this])
    unfold mergeGroup
    rw [hf]
  · intro g hall hlen
    have hf : g.find? isIND = none :=
      List.find?_eq_none.2 (fun x hx => by
        have := hall x hx
        simp [this])
    unfold mergeGroup
    rw [hf]
    match g, hlen with
    | a :: b :: t, _ => rfl
  · intro rs r hr hk
    exact singleton_group_mem rs [] r hr hk
  · intro rs k g hk hmem
    exact (transactionGroups_inv rs k hk).2 g hmem
  · rfl

/-- Claim C1 witness: the per-group and grouping parts of the theorem
applied at concrete groups and records. -/
theorem C1_smart_merge_witness :
    mergeGroup [rINDC1, rPACC1] = some (mergedOf rINDC1 ([rINDC1, rPACC1].find? isConduit)) ∧
    mergeGroup [rPACC1] = some (toMRec rPACC1) ∧
    mergeGroup [rPACC1, rPACC1] = none ∧
    (none, [{ rPACC1 with transactionId := "" }]) ∈
      transactionGroups [{ rPACC1 with transactionId := "" }] := by
  refine ⟨(C1_smart_merge.2.1 [rINDC1, rPACC1] rINDC1 (by rfl)).2.1, ?_, ?_, ?_⟩
  · exact C1_smart_merge.2.2.2.1 [rPACC1] rPACC1 (by decide) rfl
  · exact C1_smart_merge.2.2.2.2.1 [rPACC1, rPACC1] (by decide) (by decide)
  · exact C1_smart_merge.2.2.2.2.2.1 [{ rPACC1 with transactionId := "" }]
      { rPACC1 with transactionId := "" } (by simp) (by rfl)

end DonorDex
